import Mathlib

/-!
Verification of the External-Sort repository against its specification.

The development shallowly embeds the core of the C++ sources:

* `src/external_sort/include/k_way_merge_sorter.hpp` — the k-way external
  merge sorter (`KWayMergeSorter<T>`: constructor validation,
  `CreateInitialRuns`, `MergeGroupOfRuns`, `Sort`);
* `src/io/include/memory_stream.hpp` — the in-memory stream factory
  (`InMemoryStreamFactory<T>` and its streams), over which the sorter is
  verified end to end;
* `src/io/include/file_stream.hpp` — the file-backed output and input
  streams (`FileOutputStream<T>::Write/Finalize`, `FileInputStream<T>::Advance`);
* `src/io/include/element_buffer.hpp` — `ElementBuffer<T>` capacity clamping;
* `src/serialization/include/serializers.hpp` — the `CreateSerializer<T>`
  strategy dispatch;
* `src/io/include/temp_file_manager.hpp` — the `TempFileManager` destructor.

Machine loops that are `while` loops over shrinking data in C++ are embedded
with an explicit fuel argument (kept large enough by construction at every
call site and proved sufficient in the lemmas below), so that every
definition is structurally recursive and therefore executable by the kernel.
-/

namespace ExtSort

/-! ### Error taxonomy

The C++ code signals errors with `std::invalid_argument` / `std::runtime_error`
/ `std::logic_error` carrying a message.  The spec's §7 taxonomy keys on the
throw site; each constructor below corresponds to one family of throw sites. -/

/-- Error kinds of spec §7, used to classify a `SortError` independently of
its message text. -/
inductive ErrKind : Type where
  | invalidArgument
  | invalidOutputUnderTempNamespace
  | memoryLimitExceeded
  | storageNotFound
  | invalidState
  | internalError
deriving DecidableEq

/-- Errors thrown by the embedded code, with the C++ message text. -/
inductive SortError : Type where
  | invalidArgument (msg : String)
  | invalidOutputUnderTempNamespace (msg : String)
  | memoryLimitExceeded (msg : String)
  | storageNotFound (msg : String)
  | invalidState (msg : String)
  | internalError (msg : String)
deriving DecidableEq

/-- Kind of an error (drops the message). -/
def SortError.kind : SortError → ErrKind
  | .invalidArgument _ => .invalidArgument
  | .invalidOutputUnderTempNamespace _ => .invalidOutputUnderTempNamespace
  | .memoryLimitExceeded _ => .memoryLimitExceeded
  | .storageNotFound _ => .storageNotFound
  | .invalidState _ => .invalidState
  | .internalError _ => .internalError

variable {T : Type} [LinearOrder T]

/-! ### Sort direction (spec §4.8)

The sorter's direction is the boolean `ascending_`.  `ordR asc` is the
"goes before or equals" relation used both by the in-memory phase-1 sort
(`std::sort` with `<` resp. `std::greater<T>`) and by the merge priority
queue (`MergeSourceComparator`, which pops the minimum for ascending and
the maximum for descending). -/

/-- Order relation of a sort direction: `a` may precede `b`. -/
def ordR : Bool → T → T → Prop
  | true, a, b => a ≤ b
  | false, a, b => b ≤ a

instance (asc : Bool) (a b : T) : Decidable (ordR asc a b) :=
  match asc with
  | true => inferInstanceAs (Decidable (a ≤ b))
  | false => inferInstanceAs (Decidable (b ≤ a))

instance (asc : Bool) : IsTotal T (ordR asc) where
  total a b := by
    cases asc with
    | true => exact le_total a b
    | false => exact le_total b a

instance (asc : Bool) : IsTrans T (ordR asc) where
  trans a b c h1 h2 := by
    cases asc with
    | true => exact le_trans h1 h2
    | false => exact le_trans h2 h1

instance (asc : Bool) : IsAntisymm T (ordR asc) where
  antisymm a b h1 h2 := by
    cases asc with
    | true => exact le_antisymm h1 h2
    | false => exact le_antisymm h2 h1

instance (asc : Bool) : IsRefl T (ordR asc) where
  refl a := by cases asc with
    | true => exact le_refl a
    | false => exact le_refl a

/-- In-memory sort of one run buffer
(`std::sort(run_buffer.begin(), run_buffer.end())` resp. with
`std::greater<T>`, k_way_merge_sorter.hpp lines 203-207).  `std::sort` is an
unspecified comparison sort; with the antisymmetric total relation
`ordR asc` its result is the unique `ordR asc`-sorted permutation of the
input, which we realize by Mathlib's insertion sort. -/
def sortRun (asc : Bool) (l : List T) : List T :=
  List.insertionSort (ordR asc) l

/-- Consecutive elements are nondecreasing: `s[i] ≤ s[i+1]`. -/
def consecLe (l : List T) : Prop :=
  ∀ i : Nat, ∀ h : i + 1 < l.length, l.get ⟨i, Nat.lt_of_succ_lt h⟩ ≤ l.get ⟨i + 1, h⟩

/-- Consecutive elements are nonincreasing: `s[i] ≥ s[i+1]`. -/
def consecGe (l : List T) : Prop :=
  ∀ i : Nat, ∀ h : i + 1 < l.length, l.get ⟨i + 1, h⟩ ≤ l.get ⟨i, Nat.lt_of_succ_lt h⟩

/-! ### The k-way merge of `MergeGroupOfRuns` (spec §4.7.1)

The priority queue of `MergeGroupOfRuns` (k_way_merge_sorter.hpp lines
231-256) holds one `MergeSource` per non-exhausted input stream and pops
the source whose current value is least (ascending) resp. greatest
(descending); exhausted streams are never pushed.  We model the queue's
content as the list of unread suffixes of the group's runs.  `extractBest`
performs one pop: it removes the head of a list whose head is a best
element among the heads (the C++ heap breaks ties arbitrarily; this model
fixes the earliest such list, which is one admissible refinement). -/

/-- One step of the merge: remove a best head among the non-empty lists. -/
def extractBest (asc : Bool) : List (List T) → Option (T × List (List T))
  | [] => none
  | [] :: rest =>
    match extractBest asc rest with
    | none => none
    | some (y, rest') => some (y, [] :: rest')
  | (x :: xs) :: rest =>
    match extractBest asc rest with
    | none => some (x, xs :: rest)
    | some (y, rest') =>
      if ordR asc x y then some (x, xs :: rest) else some (y, (x :: xs) :: rest')

/-- The merge loop, with fuel bounding the number of elements emitted. -/
def mergeAllFuel (asc : Bool) : Nat → List (List T) → List T
  | 0, _ => []
  | fuel + 1, ls =>
    match extractBest asc ls with
    | none => []
    | some (x, ls') => x :: mergeAllFuel asc fuel ls'

/-- Output sequence of the k-way merge of the given run contents
(the `while (!pq.empty())` loop of `MergeGroupOfRuns`). -/
def mergeAll (asc : Bool) (ls : List (List T)) : List T :=
  mergeAllFuel asc ls.flatten.length ls

/-! ### Phase 1 run splitting (spec §4.7, `CreateInitialRuns`)

The inner `while (!input_stream->IsExhausted())` loop of
`CreateInitialRuns` (k_way_merge_sorter.hpp lines 166-199) accumulates
records into one run buffer.  `fp` is the estimated element footprint of
lines 169-176: `sizeof(T)` for trivially-copyable records and
`serialized_size + sizeof(T)` otherwise; the embedding abstracts it as a
function parameter of the record type. -/

/-- One run buffer fill: consumes records while the budget allows, mirroring
the inner loop of `CreateInitialRuns`.  Arguments after the input are the
running `current_run_mem_usage` and the (reversed) `run_buffer`. -/
def buildRun (budget : Nat) (fp : T → Nat) : List T → Nat → List T → Except SortError (List T × List T)
  | [], _, buf => .ok (buf.reverse, [])
  | x :: rest, usage, buf =>
    if buf.isEmpty then
      if budget < fp x then
        .error (.memoryLimitExceeded
          "KWayMergeSorter: Memory limit is too small for a single element.")
      else
        buildRun budget fp rest (usage + fp x) (x :: buf)
    else if budget < usage + fp x then
      .ok (buf.reverse, x :: rest)
    else
      buildRun budget fp rest (usage + fp x) (x :: buf)

/-! ### The in-memory stream factory (memory_stream.hpp)

`InMemoryStreamFactory<T>` holds two `std::map`s keyed by `StorageId`
(`storages_` and `storage_declared_sizes_`) plus the temp-id counter.  The
maps are modeled as functions `String → Option _` (a `std::map` has unique
keys).  An `InMemoryInputStream` snapshots the shared data vector at
construction and reads the first `min(declared, size)` elements
(constructor clamping, memory_stream.hpp lines 283-289); an
`InMemoryOutputStream` starts from a fresh cleared vector, appends on
`Write`, and stores its write count into the declared size on
`Finalize`. -/

/-- Pointwise map update. -/
def upd {α : Type} (m : String → Option α) (k : String) (v : Option α) : String → Option α :=
  fun q => if q = k then v else m q

/-- State of an `InMemoryStreamFactory<T>`. -/
structure MemFactory (T : Type) : Type where
  storages : String → Option (List T)
  declaredSizes : String → Option Nat
  tempIdCounter : Nat

/-- The constant `temp_prefix_ = "in_memory_temp_run_"` of the in-memory
factory, returned by `GetTempStorageContextId()`. -/
def tempCtxId : String := "in_memory_temp_run_"

/-- Decimal digits of `n`, least significant first, computed with fuel
(`fuel ≥ n` suffices; the fuel makes the recursion structural). -/
def decDigitsRev : Nat → Nat → List Nat
  | 0, _ => []
  | fuel + 1, n => if n = 0 then [] else n % 10 :: decDigitsRev fuel (n / 10)

/-- Decimal representation of a natural number (`std::to_string`). -/
def natDecimal (n : Nat) : String :=
  if n = 0 then "0" else String.mk (((decDigitsRev n n).reverse).map Nat.digitChar)

/-- The temp id minted for counter value `c`
(`temp_prefix_ + std::to_string(temp_id_counter_++)`). -/
def tempName (c : Nat) : String := tempCtxId ++ natDecimal c

/-- `CreateInputStream`: fails when either map lacks the id, otherwise
yields the sequence the stream will produce — the first
`min(declared, size)` elements of the stored vector. -/
def memCreateInput (id : String) (bufCap : Nat) (st : MemFactory T) : Except SortError (List T) :=
  match st.storages id, st.declaredSizes id with
  | some data, some declared => .ok (data.take (min declared data.length))
  | _, _ => .error (.storageNotFound
      ("InMemoryStreamFactory: Storage ID not found for input: " ++ id))

/-- `CreateOutputStream`: installs a fresh empty vector and a fresh zero
declared size at `id` (pre-existing content is replaced). -/
def memCreateOutput (id : String) (bufCap : Nat) (st : MemFactory T) : MemFactory T :=
  { st with
    storages := upd st.storages id (some [])
    declaredSizes := upd st.declaredSizes id (some 0) }

/-- `CreateTempOutputStream`: mints `tempName counter`, bumps the counter and
installs fresh entries at the minted id. -/
def memCreateTempOutput (bufCap : Nat) (st : MemFactory T) : String × MemFactory T :=
  let id := tempName st.tempIdCounter
  (id, { memCreateOutput id bufCap st with tempIdCounter := st.tempIdCounter + 1 })

/-- `InMemoryOutputStream::Write`: push one element onto the shared vector. -/
def memWrite (id : String) (x : T) (st : MemFactory T) : MemFactory T :=
  { st with storages := upd st.storages id (some (((st.storages id).getD []) ++ [x])) }

/-- A sequence of `Write` calls. -/
def memWriteAll (id : String) (l : List T) (st : MemFactory T) : MemFactory T :=
  l.foldl (fun s x => memWrite id x s) st

/-- `InMemoryOutputStream::Finalize`: store the stream's write count into the
shared declared size. -/
def memFinalize (id : String) (elementsWritten : Nat) (st : MemFactory T) : MemFactory T :=
  { st with declaredSizes := upd st.declaredSizes id (some elementsWritten) }

/-- `DeleteStorage`: erase the id from both maps. -/
def memDeleteStorage (id : String) (st : MemFactory T) : MemFactory T :=
  { st with
    storages := upd st.storages id none
    declaredSizes := upd st.declaredSizes id none }

/-- `MakeStoragePermanent`: no-op when the ids coincide; otherwise move both
entries from `tempId` to `finalId`, failing when `tempId` is absent. -/
def memMakePermanent (tempId finalId : String) (st : MemFactory T) : Except SortError (MemFactory T) :=
  if tempId = finalId then .ok st
  else
    match st.storages tempId, st.declaredSizes tempId with
    | some data, some declared =>
      .ok (memDeleteStorage tempId
        { st with
          storages := upd st.storages finalId (some data)
          declaredSizes := upd st.declaredSizes finalId (some declared) })
    | _, _ => .error (.storageNotFound
        ("InMemoryStreamFactory: Temp ID not found: " ++ tempId))

/-- `StorageExists`. -/
def memStorageExists (id : String) (st : MemFactory T) : Bool :=
  (st.storages id).isSome

/-! ### Sorter execution results

A C++ exception unwinds out of `Sort()` while the factory keeps its state;
`MRes` therefore pairs both outcomes with the resulting factory state. -/

/-- Result of a sorter step: a value or an escaped exception, together with
the factory state at that point. -/
inductive MRes (T : Type) (α : Type) : Type where
  | ok (a : α) (st : MemFactory T)
  | err (e : SortError) (st : MemFactory T)

/-- Factory state after the step, whether it succeeded or threw. -/
def MRes.state {T α : Type} : MRes T α → MemFactory T
  | .ok _ st => st
  | .err _ st => st

/-- Error kind of the step's outcome (`none` on success). -/
def MRes.kind {T α : Type} : MRes T α → Option ErrKind
  | .ok _ _ => none
  | .err e _ => some e.kind

/-! ### `CreateInitialRuns` (k_way_merge_sorter.hpp lines 140-223) -/

/-- The outer run-creation loop: repeatedly fill a run buffer from the
remaining input, sort it in the current direction, mint a temp output,
write the run with move-writes and finalize it.  The fuel bounds the
number of runs (each run consumes at least one input record, so the input
length suffices). -/
def createRunsLoop (budget : Nat) (fp : T → Nat) (asc : Bool) (bufCap : Nat) :
    Nat → List T → List String → MemFactory T → MRes T (List String)
  | _, [], acc, st => .ok acc.reverse st
  | 0, _ :: _, _, st =>
    .err (.internalError "KWayMergeSorter: run creation did not terminate") st
  | fuel + 1, x :: rest, acc, st =>
    match buildRun budget fp (x :: rest) 0 [] with
    | .error e => .err e st
    | .ok (run, remaining) =>
      if run.isEmpty then .ok acc.reverse st
      else
        let sortedRun := sortRun asc run
        let minted := memCreateTempOutput bufCap st
        let st2 := memWriteAll minted.1 sortedRun minted.2
        let st3 := memFinalize minted.1 sortedRun.length st2
        createRunsLoop budget fp asc bufCap fuel remaining (minted.1 :: acc) st3

/-- `CreateInitialRuns`: open the input; an empty original storage yields no
runs; otherwise run the loop above over the readable input sequence. -/
def createInitialRuns (budget : Nat) (fp : T → Nat) (asc : Bool) (bufCap : Nat)
    (inputId : String) (st : MemFactory T) : MRes T (List String) :=
  match memCreateInput inputId bufCap st with
  | .error e => .err e st
  | .ok data =>
    if data.isEmpty then .ok [] st
    else createRunsLoop budget fp asc bufCap data.length data [] st

/-! ### `MergeGroupOfRuns` (k_way_merge_sorter.hpp lines 225-260) -/

/-- Open every run of the group as an input stream (snapshotting its
readable content), failing when one is absent. -/
def readGroup (bufCap : Nat) : List String → MemFactory T → Except SortError (List (List T))
  | [], _ => .ok []
  | id :: rest, st =>
    match memCreateInput id bufCap st with
    | .error e => .error e
    | .ok c =>
      match readGroup bufCap rest st with
      | .error e => .error e
      | .ok cs => .ok (c :: cs)

/-- `MergeGroupOfRuns`: open the group's inputs, create the output stream at
`outputRunId`, emit the k-way merge of the group and finalize. -/
def mergeGroupOfRuns (asc : Bool) (bufCap : Nat) (groupRunIds : List String)
    (outputRunId : String) (st : MemFactory T) : MRes T Unit :=
  match readGroup bufCap groupRunIds st with
  | .error e => .err e st
  | .ok contents =>
    let st1 := memCreateOutput outputRunId bufCap st
    let merged := mergeAll asc contents
    let st2 := memWriteAll outputRunId merged st1
    .ok () (memFinalize outputRunId merged.length st2)

/-! ### `Sort` (k_way_merge_sorter.hpp lines 285-356) -/

/-- Chunking of the run list into groups of `k` (the
`for (i = 0; i < size; i += k)` walk), with fuel making the recursion
structural (`l.length` suffices for any `k ≥ 1`). -/
def chunkFuel {α : Type} : Nat → Nat → List α → List (List α)
  | 0, _, _ => []
  | _ + 1, _, [] => []
  | fuel + 1, k, x :: xs => (x :: xs.take (k - 1)) :: chunkFuel fuel k (xs.drop (k - 1))

/-- Groups of up to `k` consecutive run ids. -/
def chunk {α : Type} (k : Nat) (l : List α) : List (List α) :=
  chunkFuel l.length k l

/-- Processing of one pass's chunks, `idx` being the chunk ordinal.  A chunk
is merged to the caller's output id exactly when the pass is small
(`current_run_ids.size() <= k`) and the chunk is the first (`i == 0`);
otherwise a temp output is minted (and immediately finalized empty, as the
C++ does with the probe `temp_stream`) before `MergeGroupOfRuns` recreates
it.  Returns the ids produced by the chunks in order. -/
def processChunks (asc : Bool) (bufCap : Nat) (outputId : String) (small : Bool) :
    List (List String) → Nat → MemFactory T → MRes T (List String)
  | [], _, st => .ok [] st
  | group :: groups, idx, st =>
    if group.isEmpty then processChunks asc bufCap outputId small groups (idx + 1) st
    else
      let isFinalMergeToOutput := small && idx == 0
      let chosen :=
        if isFinalMergeToOutput then (outputId, st)
        else
          let minted := memCreateTempOutput bufCap st
          (minted.1, memFinalize minted.1 0 minted.2)
      match mergeGroupOfRuns asc bufCap group chosen.1 chosen.2 with
      | .err e s => .err e s
      | .ok _ st2 =>
        match processChunks asc bufCap outputId small groups (idx + 1) st2 with
        | .err e s => .err e s
        | .ok nextIds st3 => .ok (chosen.1 :: nextIds) st3

/-- End-of-pass deletion: every consumed run id except the caller's output id
is deleted (`if (id_del != output_id_) DeleteStorage(id_del)`). -/
def deleteConsumed (outputId : String) (ids : List String) (st : MemFactory T) : MemFactory T :=
  ids.foldl (fun s id => if id = outputId then s else memDeleteStorage id s) st

/-- One merge pass over the current run ids. -/
def mergePass (asc : Bool) (bufCap k : Nat) (outputId : String) (ids : List String)
    (st : MemFactory T) : MRes T (List String) :=
  match processChunks asc bufCap outputId (decide (ids.length ≤ k)) (chunk k ids) 0 st with
  | .err e s => .err e s
  | .ok next st1 => .ok next (deleteConsumed outputId ids st1)

/-- The `while (current_run_ids.size() > 1)` loop of `Sort`, with fuel
bounding the number of passes (for `k ≥ 2` every pass strictly shrinks the
run list, so the initial run count suffices). -/
def mergeLoopFuel (asc : Bool) (bufCap k : Nat) (outputId : String) :
    Nat → List String → MemFactory T → MRes T (List String)
  | 0, ids, st =>
    if ids.length ≤ 1 then .ok ids st
    else .err (.internalError "KWayMergeSorter: merge passes did not terminate") st
  | fuel + 1, ids, st =>
    if ids.length ≤ 1 then .ok ids st
    else
      match mergePass asc bufCap k outputId ids st with
      | .err e s => .err e s
      | .ok next st1 => mergeLoopFuel asc bufCap k outputId fuel next st1

/-- `KWayMergeSorter<T>::Sort()` over the in-memory factory: phase 1 creates
the initial runs (an empty input directly yields an empty finalized
output), phase 2 merges until at most one run remains, phase 3 renames a
lone surviving temp run to the caller's output id, defensively creating an
empty output when no runs remain and none exists. -/
def sorterSort (budget : Nat) (fp : T → Nat) (k : Nat) (bufCap : Nat) (asc : Bool)
    (inputId outputId : String) (st : MemFactory T) : MRes T Unit :=
  match createInitialRuns budget fp asc bufCap inputId st with
  | .err e s => .err e s
  | .ok runIds st1 =>
    if runIds.isEmpty then
      .ok () (memFinalize outputId 0 (memCreateOutput outputId bufCap st1))
    else
      match mergeLoopFuel asc bufCap k outputId runIds.length runIds st1 with
      | .err e s => .err e s
      | .ok finalIds st2 =>
        match finalIds with
        | [lastId] =>
          if lastId = outputId then .ok () st2
          else
            match memMakePermanent lastId outputId st2 with
            | .error e => .err e st2
            | .ok st3 => .ok () st3
        | [] =>
          if memStorageExists outputId st2 then .ok () st2
          else .ok () (memFinalize outputId 0 (memCreateOutput outputId bufCap st2))
        | _ => .ok () st2

/-- `KWayMergeSorter<T>::KWayMergeSorter` validation (k_way_merge_sorter.hpp
lines 262-283): reject `k < 2` with `std::invalid_argument`, then reject an
output id strictly under the factory's temp storage context
(`!temp.empty() && output.rfind(temp, 0) == 0 && output.length() > temp.length()`).
The check is a pure function of its arguments: no stream is created and no
record is read or written. -/
def kwayMergeSorterCtor (memBytes kDegree ioBufElems : Nat)
    (outputId tempContextId : String) : Except SortError Unit :=
  if kDegree < 2 then
    .error (.invalidArgument "KWayMergeSorter: k_way_degree must be at least 2.")
  else if (!tempContextId.isEmpty) && tempContextId.data.isPrefixOf outputId.data
      && decide (tempContextId.length < outputId.length) then
    .error (.invalidOutputUnderTempNamespace
      ("KWayMergeSorter: Output storage ID '" ++ outputId ++
        "' seems to be inside the temporary storage context '" ++ tempContextId ++ "'."))
  else .ok ()

/-! ### Serialization strategy dispatch (serializers.hpp lines 411-425) -/

/-- Outcomes of the four serialization concepts of `type_concepts.hpp` for a
record type `T`: `PodSerializable`, `CustomSerializable` (free
`Serialize`/`Deserialize` functions found by ADL), `MethodSerializable`
(member methods), `SpecializedSerializable` (a library `Serializer<T>`
specialization). -/
structure TypeTraits : Type where
  podSerializable : Bool
  customSerializable : Bool
  methodSerializable : Bool
  specializedSerializable : Bool
deriving DecidableEq

/-- The serializer families `CreateSerializer<T>` can instantiate
(`noSerializer` models the final `throw std::logic_error`). -/
inductive SerializerChoice : Type where
  | pod
  | customFunction
  | method
  | specialized
  | noSerializer
deriving DecidableEq

/-- `serialization::CreateSerializer<T>`: the `if constexpr` cascade of
serializers.hpp lines 414-424, in the source's order. -/
def CreateSerializer (t : TypeTraits) : SerializerChoice :=
  if t.podSerializable then .pod
  else if t.customSerializable then .customFunction
  else if t.methodSerializable then .method
  else if t.specializedSerializable then .specialized
  else .noSerializer

/-! ### `ElementBuffer<T>` capacity (element_buffer.hpp lines 117-123) -/

/-- Capacity stored by the `ElementBuffer` constructor:
`std::max(uint64_t(1), capacity)`. -/
def elementBufferCapacity (capacity : Nat) : Nat := max 1 capacity

/-! ### File-backed output stream (file_stream.hpp lines 446-592)

`FileOutputStream<T>` buffers writes in an `ElementBuffer`, flushes the
buffer to the file body when it fills, and on `Finalize` flushes, seeks to
offset 0 and rewrites the 8-byte header with the running element count.
The model keeps the header and the body as separate fields of the on-disk
image; I/O primitives are assumed to transfer the requested bytes (the
C++ turns short transfers into thrown `IoError`s, which cannot occur in the
list model). -/

/-- State of a `FileOutputStream<T>` together with its on-disk image. -/
structure FileOutputModel (T : Type) : Type where
  id : String
  headerOnDisk : Nat
  bodyOnDisk : List T
  buf : List T
  bufCap : Nat
  totalElementsWritten : Nat
  finalized : Bool

/-- A freshly constructed output stream: placeholder zero header, empty
body, empty buffer with the clamped `ElementBuffer` capacity. -/
def fileOutputNew (id : String) (bufferCapacityElements : Nat) : FileOutputModel T :=
  ⟨id, 0, [], [], elementBufferCapacity bufferCapacityElements, 0, false⟩

/-- `FlushBufferInternal`: append the buffered elements to the body and
clear the buffer (no-op on an empty buffer or a finalized stream). -/
def fileFlushBufferInternal (st : FileOutputModel T) : FileOutputModel T :=
  if st.buf.isEmpty || st.finalized then st
  else { st with bodyOnDisk := st.bodyOnDisk ++ st.buf, buf := [] }

/-- `Write`: reject after finalize; push into the buffer (`PushBack` stores
only below capacity and reports fullness), flush when full, and increment
the element count. -/
def fileOutputWrite (x : T) (st : FileOutputModel T) : Except SortError (FileOutputModel T) :=
  if st.finalized then
    .error (.invalidState ("Write to finalized FileOutputStream: " ++ st.id))
  else
    let pushed := if st.buf.length < st.bufCap then { st with buf := st.buf ++ [x] } else st
    let flushed := if pushed.buf.length = pushed.bufCap then fileFlushBufferInternal pushed else pushed
    .ok { flushed with totalElementsWritten := flushed.totalElementsWritten + 1 }

/-- A sequence of `Write` calls. -/
def fileOutputWriteAll : List T → FileOutputModel T → Except SortError (FileOutputModel T)
  | [], st => .ok st
  | x :: xs, st =>
    match fileOutputWrite x st with
    | .error e => .error e
    | .ok st' => fileOutputWriteAll xs st'

/-- `Finalize`: idempotent; flush, rewrite the header with the element
count, mark finalized. -/
def fileOutputFinalize (st : FileOutputModel T) : FileOutputModel T :=
  if st.finalized then st
  else
    let st1 := fileFlushBufferInternal st
    { st1 with headerOnDisk := st1.totalElementsWritten, finalized := true }

/-- The record sequence a `FileInputStream` opened on this image will
produce: it reads `min(header, body)` records, i.e. the first
`headerOnDisk` body records. -/
def fileReadBackAll (st : FileOutputModel T) : List T :=
  st.bodyOnDisk.take st.headerOnDisk

/-! ### File-backed input stream (file_stream.hpp lines 266-443) -/

/-- State of a `FileInputStream<T>`: the unread file suffix, the unread part
of the buffer (`ReadNext` consumes from the front), the header count, the
running read count, the exhaustion flag and the one-ahead cached value. -/
structure FileInputModel (T : Type) : Type where
  id : String
  fileRemainder : List T
  bufferToRead : List T
  bufCap : Nat
  totalElementsInFile : Nat
  totalElementsRead : Nat
  isExhaustedFlag : Bool
  currentValue : T
  hasValidValue : Bool

/-- `FillBuffer` (file_stream.hpp lines 267-316): refills the buffer with
`min(capacity, remaining)` records from the file; an empty refill before
the header count is reached marks exhaustion (the end-of-file branch). -/
def fileFillBuffer (st : FileInputModel T) : FileInputModel T :=
  if st.isExhaustedFlag ||
      (decide (0 < st.totalElementsInFile) &&
        decide (st.totalElementsInFile ≤ st.totalElementsRead)) then
    { st with bufferToRead := [], isExhaustedFlag := true, hasValidValue := false }
  else
    let n := min st.bufCap (st.totalElementsInFile - st.totalElementsRead)
    if n = 0 then
      { st with bufferToRead := [], isExhaustedFlag := true, hasValidValue := false }
    else
      let got := st.fileRemainder.take n
      let st1 := { st with bufferToRead := got, fileRemainder := st.fileRemainder.drop n }
      if got.isEmpty && decide (st.totalElementsRead < st.totalElementsInFile) then
        { st1 with isExhaustedFlag := true, hasValidValue := false }
      else st1

/-- `Advance` (file_stream.hpp lines 393-415): the guard clause returns at
once on an exhausted stream; otherwise decode the next buffered value into
the cache, refilling first when the buffer is drained. -/
def fileInputAdvance (st : FileInputModel T) : FileInputModel T :=
  if st.isExhaustedFlag ||
      (decide (0 < st.totalElementsInFile) &&
        decide (st.totalElementsInFile ≤ st.totalElementsRead)) then
    { st with hasValidValue := false, isExhaustedFlag := true }
  else
    let st1 := if st.bufferToRead.isEmpty then fileFillBuffer st else st
    match st1.bufferToRead with
    | [] => { st1 with hasValidValue := false, isExhaustedFlag := true }
    | v :: rest =>
      let st2 := { st1 with
        bufferToRead := rest
        currentValue := v
        totalElementsRead := st1.totalElementsRead + 1
        hasValidValue := true }
      if st2.totalElementsInFile ≤ st2.totalElementsRead then
        { st2 with isExhaustedFlag := true }
      else st2

/-- `Value`: the cached current value, failing on an invalid cache. -/
def fileInputValue (st : FileInputModel T) : Except SortError T :=
  if st.hasValidValue then .ok st.currentValue
  else .error (.invalidState ("Value from exhausted FileInputStream: " ++ st.id))

/-- `IsExhausted` (file_stream.hpp lines 435-438). -/
def fileInputIsExhausted (st : FileInputModel T) : Bool :=
  st.isExhaustedFlag && !st.hasValidValue

/-! ### In-memory input stream (memory_stream.hpp lines 276-330) -/

/-- State of an `InMemoryInputStream<T>`. -/
structure MemInputModel (T : Type) : Type where
  id : String
  dataVec : List T
  totalElementsInStorage : Nat
  readCursor : Nat
  currentValue : T
  hasValidValue : Bool
  isExhaustedFlag : Bool

/-- `Advance` (memory_stream.hpp lines 299-312). -/
def memInputAdvance [Inhabited T] (st : MemInputModel T) : MemInputModel T :=
  if st.isExhaustedFlag || decide (st.totalElementsInStorage ≤ st.readCursor) then
    { st with hasValidValue := false, isExhaustedFlag := true }
  else
    let st1 := { st with
      currentValue := st.dataVec.getD st.readCursor default
      readCursor := st.readCursor + 1
      hasValidValue := true }
    if st1.totalElementsInStorage ≤ st1.readCursor then
      { st1 with isExhaustedFlag := true }
    else st1

/-- `Value` (memory_stream.hpp lines 314-320). -/
def memInputValue (st : MemInputModel T) : Except SortError T :=
  if st.hasValidValue then .ok st.currentValue
  else .error (.invalidState ("Value from exhausted InMemoryInputStream: " ++ st.id))

/-- `IsExhausted` (memory_stream.hpp lines 322-325). -/
def memInputIsExhausted (st : MemInputModel T) : Bool :=
  st.isExhaustedFlag && !st.hasValidValue

/-! ### `TempFileManager` destructor (temp_file_manager.hpp lines 86-103)

The destructor removes the base directory and everything it contains
(`std::filesystem::remove_all`) exactly when this instance created the
directory.  The filesystem is abstracted as an existence predicate on
paths; membership of a path in the directory's subtree is approximated by
the string-prefix relation on paths, which holds for every file the
manager minted (it concatenates the base path with a name). -/

/-- Effect of `~TempFileManager()` on the abstract filesystem. -/
def tempManagerDrop (ownsDirectory : Bool) (baseDirPath : String)
    (fsExists : String → Bool) : String → Bool :=
  if ownsDirectory && fsExists baseDirPath then
    fun p => if baseDirPath.data.isPrefixOf p.data then false else fsExists p
  else fsExists

/-! ### Predicates used by the specifications -/

/-- The storage entry at `id` is exactly the finalized sequence `c`. -/
def entryIs (st : MemFactory T) (id : String) (c : List T) : Prop :=
  st.storages id = some c ∧ st.declaredSizes id = some c.length

/-- No entry of the factory lives at a mintable temp id. -/
def NoTempEntries (st : MemFactory T) : Prop :=
  ∀ c : Nat, st.storages (tempName c) = none ∧ st.declaredSizes (tempName c) = none

/-- Invariant of the merge passes: the live run ids were all minted before
the current counter, are pairwise distinct, hold sorted finalized contents
whose concatenation is a permutation of the input, and no other temp id is
present in the factory. -/
def MLInv (asc : Bool) (input : List T) (ids : List String) (st : MemFactory T) : Prop :=
  (∀ id ∈ ids, ∃ c : Nat, c < st.tempIdCounter ∧ id = tempName c) ∧
  ids.Nodup ∧
  (∃ contents : List (List T),
    List.Forall₂ (entryIs st) ids contents ∧
    (∀ r ∈ contents, List.Sorted (ordR asc) r) ∧
    contents.flatten.Perm input) ∧
  (∀ c : Nat, tempName c ∉ ids →
    st.storages (tempName c) = none ∧ st.declaredSizes (tempName c) = none)

/-- The caller's output id is not strictly under the factory's temp
namespace (the condition the sorter constructor enforces). -/
def outputNotUnderTemp (outputId : String) : Prop :=
  ¬(tempCtxId.data <+: outputId.data ∧ tempCtxId.length < outputId.length)

/-- The stored list at an id (empty when absent). -/
def storedList (st : MemFactory T) (id : String) : List T :=
  (st.storages id).getD []

/-- Final-pass postcondition: the caller's output id holds a finalized sorted
permutation of the input and no temp entry remains. -/
def OutDone (asc : Bool) (input : List T) (outputId : String) (st : MemFactory T) : Prop :=
  (∃ m : List T, st.storages outputId = some m ∧ st.declaredSizes outputId = some m.length ∧
    List.Sorted (ordR asc) m ∧ m.Perm input) ∧
  NoTempEntries st

/-- Error kind of an `Except` outcome (`none` on success). -/
def exKind {α : Type} : Except SortError α → Option ErrKind
  | .ok _ => none
  | .error e => some e.kind

/-- Concrete factory holding the unsorted sequence `[3, 1, 2]` at id `"in"`
(used to exercise the embedded sorter on explicit inputs). -/
def wFactoryA : MemFactory Nat :=
  ⟨fun q => if q = "in" then some [3, 1, 2] else none,
   fun q => if q = "in" then some 3 else none, 0⟩

/-- Concrete factory holding `[5, 1]` at id `"in"` (the record `5` is given
an oversized footprint in the memory-limit scenarios). -/
def wFactoryB : MemFactory Nat :=
  ⟨fun q => if q = "in" then some [5, 1] else none,
   fun q => if q = "in" then some 2 else none, 0⟩

/-- Concrete factory whose storage `"in"` is a finalized empty sequence
(header zero). -/
def wFactoryC : MemFactory Nat :=
  ⟨fun q => if q = "in" then some [] else none,
   fun q => if q = "in" then some 0 else none, 0⟩

/-- The serializer-dispatch order as the SPEC states it (pod, then methods,
then external free functions, then library specializations).  This
definition follows the spec's words, not the source, and exists solely to
be compared with `CreateSerializer`, which embeds serializers.hpp. -/
def specCreateSerializer (t : TypeTraits) : SerializerChoice :=
  if t.podSerializable then .pod
  else if t.methodSerializable then .method
  else if t.customSerializable then .customFunction
  else if t.specializedSerializable then .specialized
  else .noSerializer

/-- Invariant of a `FileOutputStream` that has absorbed the writes of
`written` since construction: not yet finalized, the body and the pending
buffer together hold exactly the written records in order, the running
element count matches, and the buffer is strictly below its (positive)
capacity. -/
def FileOutInv (written : List T) (st : FileOutputModel T) : Prop :=
  st.finalized = false ∧
  st.bodyOnDisk ++ st.buf = written ∧
  st.totalElementsWritten = written.length ∧
  st.buf.length < st.bufCap

/-- A concrete exhausted file-backed input stream (empty file, header 0,
first `Advance` already performed: flag set, cache invalid). -/
def wFileExhausted : FileInputModel Nat := ⟨"wf", [], [], 1, 0, 0, true, 0, false⟩

/-- A concrete exhausted in-memory input stream. -/
def wMemExhausted : MemInputModel Nat := ⟨"wm", [], 0, 0, 0, false, true⟩

/-! ## Map update lemmas -/

theorem upd_same {α : Type} (m : String → Option α) (k : String) (v : Option α) :
    upd m k v k = v := by
  simp [upd]

theorem upd_ne {α : Type} (m : String → Option α) (k : String) (v : Option α)
    {q : String} (h : q ≠ k) : upd m k v q = m q := by
  simp [upd, h]

/-! ## Lemmas about the in-memory sort of one run -/

theorem sortRun_perm (asc : Bool) (l : List T) : (sortRun asc l).Perm l :=
  List.perm_insertionSort _ l

theorem sortRun_sorted (asc : Bool) (l : List T) : List.Sorted (ordR asc) (sortRun asc l) :=
  List.sorted_insertionSort _ l

theorem sorted_perm_eq_sortRun {asc : Bool} {l m : List T}
    (hp : m.Perm l) (hs : List.Sorted (ordR asc) m) : m = sortRun asc l :=
  List.eq_of_perm_of_sorted (hp.trans (List.perm_insertionSort _ l).symm) hs
    (List.sorted_insertionSort _ l)

theorem consecLe_of_sorted {l : List T} (h : List.Sorted (ordR true) l) : consecLe l := by
  intro i hi
  exact h.rel_get_of_lt (Fin.mk_lt_mk.mpr (Nat.lt_succ_self i))

theorem consecGe_of_sorted {l : List T} (h : List.Sorted (ordR false) l) : consecGe l := by
  intro i hi
  exact h.rel_get_of_lt (Fin.mk_lt_mk.mpr (Nat.lt_succ_self i))

/-! ## Lemmas about the k-way merge -/

theorem extractBest_none {asc : Bool} : ∀ {ls : List (List T)},
    extractBest asc ls = none → ls.flatten = []
  | [], _ => rfl
  | [] :: rest, h => by
    rw [extractBest] at h
    cases hrec : extractBest asc rest with
    | none =>
      simpa using extractBest_none hrec
    | some p =>
      rw [hrec] at h
      obtain ⟨y, rest'⟩ := p
      simp at h
  | (x :: xs) :: rest, h => by
    rw [extractBest] at h
    cases hrec : extractBest asc rest with
    | none => rw [hrec] at h; simp at h
    | some p =>
      rw [hrec] at h
      obtain ⟨y, rest'⟩ := p
      by_cases hord : ordR asc x y <;> simp [hord] at h

theorem extractBest_some_perm {asc : Bool} : ∀ {ls : List (List T)} {x : T}
    {ls' : List (List T)}, extractBest asc ls = some (x, ls') →
    (x :: ls'.flatten).Perm ls.flatten
  | [], x, ls', h => by rw [extractBest] at h; exact absurd h (by simp)
  | [] :: rest, x, ls', h => by
    rw [extractBest] at h
    cases hrec : extractBest asc rest with
    | none => rw [hrec] at h; simp at h
    | some p =>
      obtain ⟨y, rest'⟩ := p
      rw [hrec] at h
      simp only [Option.some.injEq, Prod.mk.injEq] at h
      obtain ⟨rfl, rfl⟩ := h
      simpa using extractBest_some_perm hrec
  | (x0 :: xs) :: rest, x, ls', h => by
    rw [extractBest] at h
    cases hrec : extractBest asc rest with
    | none =>
      rw [hrec] at h
      simp only [Option.some.injEq, Prod.mk.injEq] at h
      obtain ⟨rfl, rfl⟩ := h
      simp
    | some p =>
      obtain ⟨y, rest'⟩ := p
      rw [hrec] at h
      by_cases hord : ordR asc x0 y
      · simp only [if_pos hord, Option.some.injEq, Prod.mk.injEq] at h
        obtain ⟨rfl, rfl⟩ := h
        simp
      · simp only [if_neg hord, Option.some.injEq, Prod.mk.injEq] at h
        obtain ⟨rfl, rfl⟩ := h
        have ih := extractBest_some_perm hrec
        simp only [List.flatten_cons]
        exact List.perm_middle.symm.trans (ih.append_left (x0 :: xs))

theorem extractBest_some_sorted {asc : Bool} : ∀ {ls : List (List T)} {x : T}
    {ls' : List (List T)}, (∀ l ∈ ls, List.Sorted (ordR asc) l) →
    extractBest asc ls = some (x, ls') →
    ∀ l ∈ ls', List.Sorted (ordR asc) l
  | [], x, ls', _, h => by rw [extractBest] at h; exact absurd h (by simp)
  | [] :: rest, x, ls', hs, h => by
    rw [extractBest] at h
    cases hrec : extractBest asc rest with
    | none => rw [hrec] at h; simp at h
    | some p =>
      obtain ⟨y, rest'⟩ := p
      rw [hrec] at h
      simp only [Option.some.injEq, Prod.mk.injEq] at h
      obtain ⟨rfl, rfl⟩ := h
      intro l hl
      cases hl with
      | head => exact List.sorted_nil
      | tail _ hl =>
        exact extractBest_some_sorted (fun l hl => hs l (List.mem_cons_of_mem _ hl)) hrec l hl
  | (x0 :: xs) :: rest, x, ls', hs, h => by
    rw [extractBest] at h
    have hxxs : List.Sorted (ordR asc) (x0 :: xs) := hs _ (List.mem_cons_self _ _)
    cases hrec : extractBest asc rest with
    | none =>
      rw [hrec] at h
      simp only [Option.some.injEq, Prod.mk.injEq] at h
      obtain ⟨rfl, rfl⟩ := h
      intro l hl
      cases hl with
      | head => exact hxxs.of_cons
      | tail _ hl => exact hs l (List.mem_cons_of_mem _ hl)
    | some p =>
      obtain ⟨y, rest'⟩ := p
      rw [hrec] at h
      by_cases hord : ordR asc x0 y
      · simp only [if_pos hord, Option.some.injEq, Prod.mk.injEq] at h
        obtain ⟨rfl, rfl⟩ := h
        intro l hl
        cases hl with
        | head => exact hxxs.of_cons
        | tail _ hl => exact hs l (List.mem_cons_of_mem _ hl)
      · simp only [if_neg hord, Option.some.injEq, Prod.mk.injEq] at h
        obtain ⟨rfl, rfl⟩ := h
        intro l hl
        cases hl with
        | head => exact hxxs
        | tail _ hl =>
          exact extractBest_some_sorted (fun l hl => hs l (List.mem_cons_of_mem _ hl)) hrec l hl

theorem extractBest_some_le {asc : Bool} : ∀ {ls : List (List T)} {x : T}
    {ls' : List (List T)}, (∀ l ∈ ls, List.Sorted (ordR asc) l) →
    extractBest asc ls = some (x, ls') →
    ∀ y ∈ ls'.flatten, ordR asc x y
  | [], x, ls', _, h => by rw [extractBest] at h; exact absurd h (by simp)
  | [] :: rest, x, ls', hs, h => by
    rw [extractBest] at h
    cases hrec : extractBest asc rest with
    | none => rw [hrec] at h; simp at h
    | some p =>
      obtain ⟨y0, rest'⟩ := p
      rw [hrec] at h
      simp only [Option.some.injEq, Prod.mk.injEq] at h
      obtain ⟨rfl, rfl⟩ := h
      intro y hy
      simp only [List.flatten_cons, List.nil_append] at hy
      exact extractBest_some_le (fun l hl => hs l (List.mem_cons_of_mem _ hl)) hrec y hy
  | (x0 :: xs) :: rest, x, ls', hs, h => by
    rw [extractBest] at h
    have hxxs : List.Sorted (ordR asc) (x0 :: xs) := hs _ (List.mem_cons_self _ _)
    have hx0xs : ∀ y ∈ xs, ordR asc x0 y := fun y hy => List.rel_of_sorted_cons hxxs y hy
    cases hrec : extractBest asc rest with
    | none =>
      rw [hrec] at h
      simp only [Option.some.injEq, Prod.mk.injEq] at h
      obtain ⟨rfl, rfl⟩ := h
      have hflat : rest.flatten = [] := extractBest_none hrec
      intro y hy
      simp only [List.flatten_cons, hflat, List.append_nil] at hy
      exact hx0xs y hy
    | some p =>
      obtain ⟨y0, rest'⟩ := p
      rw [hrec] at h
      have hrestS : ∀ l ∈ rest, List.Sorted (ordR asc) l :=
        fun l hl => hs l (List.mem_cons_of_mem _ hl)
      have ihle : ∀ y ∈ rest'.flatten, ordR asc y0 y :=
        extractBest_some_le hrestS hrec
      have hy0rest : ∀ y ∈ rest.flatten, ordR asc y0 y := by
        intro y hy
        have hperm := extractBest_some_perm hrec
        have hmm : y ∈ y0 :: rest'.flatten := hperm.mem_iff.mpr hy
        rcases List.mem_cons.mp hmm with rfl | hmem
        · exact IsRefl.refl _
        · exact ihle y hmem
      by_cases hord : ordR asc x0 y0
      · simp only [if_pos hord, Option.some.injEq, Prod.mk.injEq] at h
        obtain ⟨rfl, rfl⟩ := h
        intro y hy
        simp only [List.flatten_cons] at hy
        rcases List.mem_append.mp hy with hy | hy
        · exact hx0xs y hy
        · exact IsTrans.trans (r := ordR asc) _ _ _ hord (hy0rest y hy)
      · simp only [if_neg hord, Option.some.injEq, Prod.mk.injEq] at h
        obtain ⟨rfl, rfl⟩ := h
        have hy0x0 : ordR asc y0 x0 := by
          rcases IsTotal.total (r := ordR asc) x0 y0 with hh | hh
          · exact absurd hh hord
          · exact hh
        intro y hy
        simp only [List.flatten_cons] at hy
        rcases List.mem_append.mp hy with hy | hy
        · rcases List.mem_cons.mp hy with rfl | hmem
          · exact hy0x0
          · exact IsTrans.trans (r := ordR asc) _ _ _ hy0x0 (hx0xs y hmem)
        · exact ihle y hy

theorem mergeAllFuel_perm {asc : Bool} : ∀ (fuel : Nat) (ls : List (List T)),
    ls.flatten.length ≤ fuel → (mergeAllFuel asc fuel ls).Perm ls.flatten
  | 0, ls, h => by
    rw [mergeAllFuel]
    rw [List.length_eq_zero.mp (Nat.le_zero.mp h)]
  | fuel + 1, ls, h => by
    rw [mergeAllFuel]
    cases hex : extractBest asc ls with
    | none => rw [extractBest_none hex]
    | some p =>
      obtain ⟨x, ls'⟩ := p
      have hperm := extractBest_some_perm hex
      have hlen : ls'.flatten.length + 1 = ls.flatten.length := by
        simpa using hperm.length_eq
      have hle : ls'.flatten.length ≤ fuel := by omega
      exact ((mergeAllFuel_perm fuel ls' hle).cons x).trans hperm

theorem mergeAllFuel_subset {asc : Bool} : ∀ (fuel : Nat) (ls : List (List T)),
    ∀ y ∈ mergeAllFuel asc fuel ls, y ∈ ls.flatten
  | 0, _, y, hy => by rw [mergeAllFuel] at hy; exact absurd hy (by simp)
  | fuel + 1, ls, y, hy => by
    rw [mergeAllFuel] at hy
    cases hex : extractBest asc ls with
    | none => rw [hex] at hy; exact absurd hy (by simp)
    | some p =>
      obtain ⟨x, ls'⟩ := p
      rw [hex] at hy
      have hperm := extractBest_some_perm hex
      cases hy with
      | head => exact hperm.mem_iff.mp (List.mem_cons_self _ _)
      | tail _ hmem =>
        exact hperm.mem_iff.mp
          (List.mem_cons_of_mem _ (mergeAllFuel_subset fuel ls' y hmem))

theorem mergeAllFuel_sorted {asc : Bool} : ∀ (fuel : Nat) (ls : List (List T)),
    (∀ l ∈ ls, List.Sorted (ordR asc) l) →
    List.Sorted (ordR asc) (mergeAllFuel asc fuel ls)
  | 0, _, _ => by rw [mergeAllFuel]; exact List.sorted_nil
  | fuel + 1, ls, hs => by
    rw [mergeAllFuel]
    cases hex : extractBest asc ls with
    | none => exact List.sorted_nil
    | some p =>
      obtain ⟨x, ls'⟩ := p
      have hrec := mergeAllFuel_sorted fuel ls' (extractBest_some_sorted hs hex)
      rw [List.sorted_cons]
      refine ⟨?_, hrec⟩
      intro b hb
      exact extractBest_some_le hs hex b (mergeAllFuel_subset fuel ls' b hb)

theorem mergeAll_perm (asc : Bool) (ls : List (List T)) :
    (mergeAll asc ls).Perm ls.flatten :=
  mergeAllFuel_perm _ ls le_rfl

theorem mergeAll_sorted {asc : Bool} {ls : List (List T)}
    (hs : ∀ l ∈ ls, List.Sorted (ordR asc) l) :
    List.Sorted (ordR asc) (mergeAll asc ls) :=
  mergeAllFuel_sorted _ ls hs

/-! ## Lemmas about phase-1 run building -/

theorem buildRun_ok_decomp {budget : Nat} {fp : T → Nat} : ∀ {l : List T} {usage : Nat}
    {buf run rem : List T}, buildRun budget fp l usage buf = .ok (run, rem) →
    ∃ taken, run = buf.reverse ++ taken ∧ l = taken ++ rem
  | [], usage, buf, run, rem, h => by
    rw [buildRun] at h
    simp only [Except.ok.injEq, Prod.mk.injEq] at h
    obtain ⟨rfl, rfl⟩ := h
    exact ⟨[], by simp, by simp⟩
  | x :: rest, usage, buf, run, rem, h => by
    rw [buildRun] at h
    by_cases hbe : buf.isEmpty = true
    · rw [if_pos hbe] at h
      by_cases hgt : budget < fp x
      · rw [if_pos hgt] at h; exact absurd h (by simp)
      · rw [if_neg hgt] at h
        obtain ⟨taken, htk, hl⟩ := buildRun_ok_decomp h
        refine ⟨x :: taken, ?_, ?_⟩
        · rw [htk, List.reverse_cons, List.append_assoc]; rfl
        · rw [hl]; rfl
    · rw [if_neg hbe] at h
      by_cases hgt : budget < usage + fp x
      · rw [if_pos hgt] at h
        simp only [Except.ok.injEq, Prod.mk.injEq] at h
        obtain ⟨rfl, rfl⟩ := h
        exact ⟨[], by simp, rfl⟩
      · rw [if_neg hgt] at h
        obtain ⟨taken, htk, hl⟩ := buildRun_ok_decomp h
        refine ⟨x :: taken, ?_, ?_⟩
        · rw [htk, List.reverse_cons, List.append_assoc]; rfl
        · rw [hl]; rfl

theorem buildRun_first_cons {budget : Nat} {fp : T → Nat} {x : T} {rest run rem : List T}
    (h : buildRun budget fp (x :: rest) 0 [] = .ok (run, rem)) :
    ∃ t, run = x :: t ∧ rest = t ++ rem := by
  rw [buildRun] at h
  simp only [List.isEmpty_nil, if_true] at h
  by_cases hgt : budget < fp x
  · rw [if_pos hgt] at h; exact absurd h (by simp)
  · rw [if_neg hgt] at h
    obtain ⟨taken, htk, hl⟩ := buildRun_ok_decomp h
    exact ⟨taken, by simpa using htk, hl⟩

theorem buildRun_ok_of_le {budget : Nat} {fp : T → Nat} : ∀ {l : List T},
    (∀ y ∈ l, fp y ≤ budget) → ∀ (usage : Nat) (buf : List T),
    ∃ run rem, buildRun budget fp l usage buf = .ok (run, rem)
  | [], _, usage, buf => ⟨buf.reverse, [], by rw [buildRun]⟩
  | x :: rest, hle, usage, buf => by
    rw [buildRun]
    by_cases hbe : buf.isEmpty = true
    · rw [if_pos hbe]
      have hx : ¬ budget < fp x := not_lt.mpr (hle x (List.mem_cons_self _ _))
      rw [if_neg hx]
      exact buildRun_ok_of_le (fun y hy => hle y (List.mem_cons_of_mem _ hy)) _ _
    · rw [if_neg hbe]
      by_cases hgt : budget < usage + fp x
      · rw [if_pos hgt]; exact ⟨_, _, rfl⟩
      · rw [if_neg hgt]
        exact buildRun_ok_of_le (fun y hy => hle y (List.mem_cons_of_mem _ hy)) _ _

theorem buildRun_err_eq {budget : Nat} {fp : T → Nat} : ∀ {l : List T} {usage : Nat}
    {buf : List T} {e : SortError}, buildRun budget fp l usage buf = .error e →
    e = .memoryLimitExceeded "KWayMergeSorter: Memory limit is too small for a single element."
  | [], usage, buf, e, h => by rw [buildRun] at h; exact absurd h (by simp)
  | x :: rest, usage, buf, e, h => by
    rw [buildRun] at h
    by_cases hbe : buf.isEmpty = true
    · rw [if_pos hbe] at h
      by_cases hgt : budget < fp x
      · rw [if_pos hgt] at h
        simp only [Except.error.injEq] at h
        exact h.symm
      · rw [if_neg hgt] at h; exact buildRun_err_eq h
    · rw [if_neg hbe] at h
      by_cases hgt : budget < usage + fp x
      · rw [if_pos hgt] at h; exact absurd h (by simp)
      · rw [if_neg hgt] at h; exact buildRun_err_eq h

theorem buildRun_heavy {budget : Nat} {fp : T → Nat} : ∀ {l : List T},
    (∃ y ∈ l, budget < fp y) → ∀ (usage : Nat) (buf : List T),
    (∃ e, buildRun budget fp l usage buf = .error e) ∨
    (∃ run rem, buildRun budget fp l usage buf = .ok (run, rem) ∧ ∃ y ∈ rem, budget < fp y)
  | [], hy, _, _ => absurd hy (by simp)
  | x :: rest, hy, usage, buf => by
    rw [buildRun]
    by_cases hbe : buf.isEmpty = true
    · rw [if_pos hbe]
      by_cases hgt : budget < fp x
      · rw [if_pos hgt]; exact Or.inl ⟨_, rfl⟩
      · rw [if_neg hgt]
        have hrest : ∃ y ∈ rest, budget < fp y := by
          obtain ⟨y, hmem, hgt'⟩ := hy
          rcases List.mem_cons.mp hmem with rfl | hmem'
          · exact absurd hgt' hgt
          · exact ⟨y, hmem', hgt'⟩
        exact buildRun_heavy hrest _ _
    · rw [if_neg hbe]
      by_cases hgt : budget < usage + fp x
      · rw [if_pos hgt]
        exact Or.inr ⟨_, _, rfl, hy⟩
      · rw [if_neg hgt]
        have hxle : ¬ budget < fp x := by omega
        have hrest : ∃ y ∈ rest, budget < fp y := by
          obtain ⟨y, hmem, hgt'⟩ := hy
          rcases List.mem_cons.mp hmem with rfl | hmem'
          · exact absurd hgt' hxle
          · exact ⟨y, hmem', hgt'⟩
        exact buildRun_heavy hrest _ _

/-! ## Injectivity of decimal temp names -/

theorem decDigitsRev_eq_digits : ∀ (fuel n : Nat), n ≤ fuel →
    decDigitsRev fuel n = Nat.digits 10 n
  | 0, n, h => by
    have hn : n = 0 := by omega
    subst hn
    rw [decDigitsRev]
    simp
  | fuel + 1, n, h => by
    rw [decDigitsRev]
    by_cases h0 : n = 0
    · subst h0; simp
    · rw [if_neg h0]
      have hdiv : n / 10 ≤ fuel := by
        have := Nat.div_lt_self (Nat.pos_of_ne_zero h0) (by norm_num : 1 < 10)
        omega
      rw [decDigitsRev_eq_digits fuel (n / 10) hdiv]
      exact (Nat.digits_def' (by norm_num : 1 < 10) (Nat.pos_of_ne_zero h0)).symm

theorem digitChar_inj_lt : ∀ a < 10, ∀ b < 10, Nat.digitChar a = Nat.digitChar b → a = b := by
  decide

theorem map_digitChar_inj : ∀ (a b : List Nat), (∀ x ∈ a, x < 10) → (∀ x ∈ b, x < 10) →
    a.map Nat.digitChar = b.map Nat.digitChar → a = b
  | [], [], _, _, _ => rfl
  | [], _ :: _, _, _, h => by simp at h
  | _ :: _, [], _, _, h => by simp at h
  | x :: xs, y :: ys, ha, hb, h => by
    simp only [List.map_cons, List.cons.injEq] at h
    have hx := digitChar_inj_lt x (ha x (List.mem_cons_self _ _)) y
      (hb y (List.mem_cons_self _ _)) h.1
    rw [hx, map_digitChar_inj xs ys (fun z hz => ha z (List.mem_cons_of_mem _ hz))
      (fun z hz => hb z (List.mem_cons_of_mem _ hz)) h.2]

theorem strEq_of_data {a b : String} (h : a.data = b.data) : a = b :=
  congrArg String.mk h

theorem natDecimal_eq_mk {n : Nat} (hn : n ≠ 0) :
    natDecimal n = String.mk ((Nat.digits 10 n).reverse.map Nat.digitChar) := by
  rw [natDecimal, if_neg hn, decDigitsRev_eq_digits n n le_rfl]

theorem natDecimal_zero_case {n : Nat} (hn : n ≠ 0) : natDecimal n ≠ natDecimal 0 := by
  intro h
  rw [natDecimal_eq_mk hn] at h
  have hd : (Nat.digits 10 n).reverse.map Nat.digitChar = ['0'] := congrArg String.data h
  cases hrev : (Nat.digits 10 n).reverse with
  | nil => rw [hrev] at hd; simp at hd
  | cons d ds =>
    rw [hrev] at hd
    cases ds with
    | cons _ _ => simp at hd
    | nil =>
      simp only [List.map_cons, List.map_nil, List.cons.injEq, and_true] at hd
      have hdig1 : Nat.digits 10 n = [d] := by
        have hr := congrArg List.reverse hrev
        simpa using hr
      have hnd : n = d := by
        rw [← Nat.ofDigits_digits 10 n, hdig1, Nat.ofDigits_singleton]
      have hdne : d ≠ 0 := by rw [← hnd]; exact hn
      have hdlt : d < 10 := Nat.digits_lt_base (by norm_num) (by rw [hdig1]; simp)
      have hfin : ∀ k < 10, Nat.digitChar k = '0' → k = 0 := by decide
      exact hdne (hfin d hdlt hd)

theorem natDecimal_inj : ∀ {m n : Nat}, natDecimal m = natDecimal n → m = n := by
  intro m n h
  by_cases hm : m = 0 <;> by_cases hn : n = 0
  · rw [hm, hn]
  · subst hm; exact absurd h.symm (natDecimal_zero_case hn)
  · subst hn; exact absurd h (natDecimal_zero_case hm)
  · rw [natDecimal_eq_mk hm, natDecimal_eq_mk hn] at h
    have hdata := congrArg String.data h
    have h2 : (Nat.digits 10 m).reverse = (Nat.digits 10 n).reverse :=
      map_digitChar_inj _ _
        (fun x hx => Nat.digits_lt_base (by norm_num) (List.mem_reverse.mp hx))
        (fun x hx => Nat.digits_lt_base (by norm_num) (List.mem_reverse.mp hx)) hdata
    have h3 : Nat.digits 10 m = Nat.digits 10 n := by
      have hr := congrArg List.reverse h2
      simpa using hr
    calc m = Nat.ofDigits 10 (Nat.digits 10 m) := (Nat.ofDigits_digits _ _).symm
      _ = Nat.ofDigits 10 (Nat.digits 10 n) := by rw [h3]
      _ = n := Nat.ofDigits_digits _ _

theorem strData_append (s t : String) : (s ++ t).data = s.data ++ t.data := by
  cases s; cases t; rfl

theorem natDecimal_data_ne_nil (n : Nat) : (natDecimal n).data ≠ [] := by
  by_cases h0 : n = 0
  · subst h0
    intro h
    simp only [natDecimal, if_pos rfl] at h
    exact absurd h (by decide)
  · simp only [natDecimal, if_neg h0, decDigitsRev_eq_digits n n le_rfl]
    intro h
    have : Nat.digits 10 n = [] := by
      have := congrArg List.length h
      simp at this
      exact List.eq_nil_of_length_eq_zero (by simpa using this)
    exact (Nat.digits_ne_nil_iff_ne_zero.mpr h0) this

theorem tempName_data (c : Nat) :
    (tempName c).data = tempCtxId.data ++ (natDecimal c).data :=
  strData_append _ _

theorem tempName_inj {c c' : Nat} (h : tempName c = tempName c') : c = c' := by
  apply natDecimal_inj
  apply strEq_of_data
  have hd := congrArg String.data h
  rw [tempName_data, tempName_data] at hd
  exact List.append_cancel_left hd

theorem strLength_data (s : String) : s.length = s.data.length := by
  cases s; rfl

theorem tempName_length_gt (c : Nat) : tempCtxId.length < (tempName c).length := by
  rw [strLength_data, strLength_data, tempName_data, List.length_append]
  have := natDecimal_data_ne_nil c
  have hpos : 0 < (natDecimal c).data.length := List.length_pos.mpr this
  omega

theorem tempName_ne_of_short {s : String} (h : s.length ≤ tempCtxId.length) (c : Nat) :
    tempName c ≠ s := by
  intro heq
  have := tempName_length_gt c
  rw [heq] at this
  omega

theorem outputNotUnderTemp_ne {out : String} (h : outputNotUnderTemp out) (c : Nat) :
    out ≠ tempName c := by
  intro heq
  apply h
  constructor
  · rw [heq, tempName_data]
    exact ⟨(natDecimal c).data, rfl⟩
  · rw [heq]
    exact tempName_length_gt c

theorem notUnderTemp_of_short {s : String} (h : s.length < tempCtxId.length) :
    outputNotUnderTemp s := by
  intro hcontra
  obtain ⟨hp, _⟩ := hcontra
  have hle : tempCtxId.data.length ≤ s.data.length := hp.length_le
  rw [strLength_data, strLength_data] at h
  omega

/-! ## State lemmas for the in-memory factory operations -/

theorem memWriteAll_storages : ∀ (l : List T) (id : String) (cur : List T) (st : MemFactory T),
    st.storages id = some cur → (memWriteAll id l st).storages id = some (cur ++ l)
  | [], id, cur, st, h => by
    rw [memWriteAll, List.foldl_nil, h, List.append_nil]
  | x :: xs, id, cur, st, h => by
    have h1 : (memWrite id x st).storages id = some (cur ++ [x]) := by
      simp [memWrite, upd_same, h]
    have h2 := memWriteAll_storages xs id (cur ++ [x]) (memWrite id x st) h1
    rw [memWriteAll, List.foldl_cons]
    rw [memWriteAll] at h2
    rw [h2, List.append_assoc]
    rfl

theorem memWriteAll_storages_ne : ∀ (l : List T) (id : String) {q : String}, q ≠ id →
    ∀ (st : MemFactory T), (memWriteAll id l st).storages q = st.storages q
  | [], _, _, _, _ => rfl
  | x :: xs, id, q, hq, st => by
    rw [memWriteAll, List.foldl_cons]
    have h2 := memWriteAll_storages_ne xs id hq (memWrite id x st)
    rw [memWriteAll] at h2
    rw [h2]
    simp [memWrite, upd_ne _ _ _ hq]

theorem memWriteAll_declaredSizes : ∀ (l : List T) (id : String) (st : MemFactory T),
    (memWriteAll id l st).declaredSizes = st.declaredSizes
  | [], _, _ => rfl
  | x :: xs, id, st => by
    rw [memWriteAll, List.foldl_cons]
    have h2 := memWriteAll_declaredSizes xs id (memWrite id x st)
    rw [memWriteAll] at h2
    rw [h2]
    rfl

theorem memWriteAll_tempIdCounter : ∀ (l : List T) (id : String) (st : MemFactory T),
    (memWriteAll id l st).tempIdCounter = st.tempIdCounter
  | [], _, _ => rfl
  | x :: xs, id, st => by
    rw [memWriteAll, List.foldl_cons]
    have h2 := memWriteAll_tempIdCounter xs id (memWrite id x st)
    rw [memWriteAll] at h2
    rw [h2]
    rfl

/-- State after create-output, write-all, finalize at `id` (the composite the
sorter performs for every output it produces). -/
theorem finWrite_state (id : String) (l : List T) (st : MemFactory T)
    (h : st.storages id = some []) :
    (memFinalize id l.length (memWriteAll id l st)).storages id = some l ∧
    (memFinalize id l.length (memWriteAll id l st)).declaredSizes id = some l.length ∧
    (memFinalize id l.length (memWriteAll id l st)).tempIdCounter = st.tempIdCounter ∧
    (∀ q, q ≠ id →
      (memFinalize id l.length (memWriteAll id l st)).storages q = st.storages q ∧
      (memFinalize id l.length (memWriteAll id l st)).declaredSizes q = st.declaredSizes q) := by
  refine ⟨?_, ?_, ?_, ?_⟩
  · show (memWriteAll id l st).storages id = some l
    have := memWriteAll_storages l id [] st h
    simpa using this
  · simp [memFinalize, upd_same]
  · simp [memFinalize, memWriteAll_tempIdCounter]
  · intro q hq
    constructor
    · show (memWriteAll id l st).storages q = st.storages q
      exact memWriteAll_storages_ne l id hq st
    · show upd (memWriteAll id l st).declaredSizes id (some l.length) q = _
      rw [upd_ne _ _ _ hq, memWriteAll_declaredSizes]

theorem memCreateOutput_state (id : String) (bufCap : Nat) (st : MemFactory T) :
    (memCreateOutput id bufCap st).storages id = some [] ∧
    (memCreateOutput id bufCap st).declaredSizes id = some 0 ∧
    (memCreateOutput id bufCap st).tempIdCounter = st.tempIdCounter ∧
    (∀ q, q ≠ id →
      (memCreateOutput id bufCap st).storages q = st.storages q ∧
      (memCreateOutput id bufCap st).declaredSizes q = st.declaredSizes q) := by
  refine ⟨upd_same _ _ _, upd_same _ _ _, rfl, ?_⟩
  intro q hq
  exact ⟨upd_ne _ _ _ hq, upd_ne _ _ _ hq⟩

theorem mint_state (bufCap : Nat) (st : MemFactory T) :
    (memCreateTempOutput bufCap st).1 = tempName st.tempIdCounter ∧
    (memCreateTempOutput bufCap st).2.storages (tempName st.tempIdCounter) = some [] ∧
    (memCreateTempOutput bufCap st).2.declaredSizes (tempName st.tempIdCounter) = some 0 ∧
    (memCreateTempOutput bufCap st).2.tempIdCounter = st.tempIdCounter + 1 ∧
    (∀ q, q ≠ tempName st.tempIdCounter →
      (memCreateTempOutput bufCap st).2.storages q = st.storages q ∧
      (memCreateTempOutput bufCap st).2.declaredSizes q = st.declaredSizes q) := by
  refine ⟨rfl, upd_same _ _ _, upd_same _ _ _, rfl, ?_⟩
  intro q hq
  exact ⟨upd_ne _ _ _ hq, upd_ne _ _ _ hq⟩

theorem deleteConsumed_state (outputId : String) : ∀ (ids : List String) (st : MemFactory T)
    (q : String),
    ((deleteConsumed outputId ids st).storages q =
      if q ∈ ids ∧ q ≠ outputId then none else st.storages q) ∧
    ((deleteConsumed outputId ids st).declaredSizes q =
      if q ∈ ids ∧ q ≠ outputId then none else st.declaredSizes q) ∧
    (deleteConsumed outputId ids st).tempIdCounter = st.tempIdCounter
  | [], st, q => by
    simp [deleteConsumed]
  | i :: rest, st, q => by
    have hstep : deleteConsumed outputId (i :: rest) st =
        deleteConsumed outputId rest (if i = outputId then st else memDeleteStorage i st) := by
      rw [deleteConsumed, List.foldl_cons, deleteConsumed]
    rw [hstep]
    by_cases hio : i = outputId
    · rw [if_pos hio]
      obtain ⟨ih1, ih2, ih3⟩ := deleteConsumed_state outputId rest st q
      rw [ih1, ih2]
      have hcond : (q ∈ i :: rest ∧ q ≠ outputId) ↔ (q ∈ rest ∧ q ≠ outputId) := by
        constructor
        · rintro ⟨hm, hne⟩
          rcases List.mem_cons.mp hm with h1 | h1
          · exact absurd (h1.trans hio) hne
          · exact ⟨h1, hne⟩
        · rintro ⟨hm, hne⟩
          exact ⟨List.mem_cons_of_mem _ hm, hne⟩
      by_cases hqr : q ∈ rest ∧ q ≠ outputId
      · rw [if_pos hqr, if_pos hqr, if_pos (hcond.mpr hqr), if_pos (hcond.mpr hqr)]
        exact ⟨rfl, rfl, ih3⟩
      · rw [if_neg hqr, if_neg hqr, if_neg (fun hh => hqr (hcond.mp hh)),
          if_neg (fun hh => hqr (hcond.mp hh))]
        exact ⟨rfl, rfl, ih3⟩
    · rw [if_neg hio]
      obtain ⟨ih1, ih2, ih3⟩ := deleteConsumed_state outputId rest (memDeleteStorage i st) q
      rw [ih1, ih2]
      by_cases hqr : q ∈ rest ∧ q ≠ outputId
      · rw [if_pos hqr, if_pos hqr]
        have hc2 : q ∈ i :: rest ∧ q ≠ outputId := ⟨List.mem_cons_of_mem _ hqr.1, hqr.2⟩
        rw [if_pos hc2, if_pos hc2]
        exact ⟨rfl, rfl, ih3⟩
      · rw [if_neg hqr, if_neg hqr]
        by_cases hqi : q = i
        · have hqo : q ≠ outputId := by rw [hqi]; exact hio
          have hc2 : q ∈ i :: rest ∧ q ≠ outputId :=
            ⟨by rw [hqi]; exact List.mem_cons_self _ _, hqo⟩
          rw [if_pos hc2, if_pos hc2]
          subst hqi
          exact ⟨upd_same _ _ _, upd_same _ _ _, ih3⟩
        · have hc2 : ¬(q ∈ i :: rest ∧ q ≠ outputId) := by
            intro hh
            rcases List.mem_cons.mp hh.1 with h1 | h1
            · exact hqi h1
            · exact hqr ⟨h1, hh.2⟩
          rw [if_neg hc2, if_neg hc2]
          exact ⟨upd_ne _ _ _ hqi, upd_ne _ _ _ hqi, ih3⟩

/-! ## Lemmas about chunking -/

theorem chunkFuel_nil {α : Type} (k : Nat) : ∀ fuel, chunkFuel fuel k ([] : List α) = [] := by
  intro fuel
  cases fuel <;> rfl

theorem chunkFuel_congr {α : Type} (k : Nat) : ∀ (f1 f2 : Nat) (l : List α),
    l.length ≤ f1 → l.length ≤ f2 → chunkFuel f1 k l = chunkFuel f2 k l
  | 0, f2, l, h1, _ => by
    have hl : l = [] := List.eq_nil_of_length_eq_zero (by omega)
    rw [hl, chunkFuel_nil, chunkFuel_nil]
  | _ + 1, f2, [], _, _ => by rw [chunkFuel_nil, chunkFuel_nil]
  | f1 + 1, f2, x :: xs, h1, h2 => by
    cases f2 with
    | zero => exact absurd h2 (by simp)
    | succ f2' =>
      rw [chunkFuel, chunkFuel]
      have hd1 : (xs.drop (k - 1)).length ≤ f1 := by
        rw [List.length_drop]
        simp only [List.length_cons] at h1
        omega
      have hd2 : (xs.drop (k - 1)).length ≤ f2' := by
        rw [List.length_drop]
        simp only [List.length_cons] at h2
        omega
      rw [chunkFuel_congr k f1 f2' (xs.drop (k - 1)) hd1 hd2]

theorem chunk_cons {α : Type} (k : Nat) (x : α) (xs : List α) :
    chunk k (x :: xs) = (x :: xs.take (k - 1)) :: chunk k (xs.drop (k - 1)) := by
  show chunkFuel (xs.length + 1) k (x :: xs) = _
  rw [chunkFuel]
  rw [chunk]
  rw [chunkFuel_congr k xs.length (xs.drop (k - 1)).length (xs.drop (k - 1))
    (by rw [List.length_drop]; omega) le_rfl]

theorem chunk_nil {α : Type} (k : Nat) : chunk k ([] : List α) = [] := rfl

theorem chunk_ne_nil {α : Type} (k : Nat) : ∀ (n : Nat) (l : List α), l.length ≤ n →
    ∀ g ∈ chunk k l, g ≠ []
  | _, [], _, g, hg => by rw [chunk_nil] at hg; exact absurd hg (by simp)
  | 0, x :: xs, h, _, _ => absurd h (by simp)
  | n + 1, x :: xs, h, g, hg => by
    rw [chunk_cons] at hg
    rcases List.mem_cons.mp hg with rfl | hg'
    · simp
    · exact chunk_ne_nil k n (xs.drop (k - 1))
        (by rw [List.length_drop]; simp only [List.length_cons] at h; omega) g hg'

theorem chunk_flatten {α : Type} {k : Nat} (hk : 1 ≤ k) : ∀ (n : Nat) (l : List α),
    l.length ≤ n → (chunk k l).flatten = l
  | _, [], _ => rfl
  | 0, x :: xs, h => absurd h (by simp)
  | n + 1, x :: xs, h => by
    rw [chunk_cons, List.flatten_cons]
    rw [chunk_flatten hk n (xs.drop (k - 1))
      (by rw [List.length_drop]; simp only [List.length_cons] at h; omega)]
    rw [List.cons_append, List.take_append_drop]

theorem chunk_length_le {α : Type} (k : Nat) : ∀ (n : Nat) (l : List α), l.length ≤ n →
    (chunk k l).length ≤ l.length
  | _, [], _ => by rw [chunk_nil]; exact le_rfl
  | 0, x :: xs, h => absurd h (by simp)
  | n + 1, x :: xs, h => by
    rw [chunk_cons]
    simp only [List.length_cons]
    have := chunk_length_le k n (xs.drop (k - 1))
      (by rw [List.length_drop]; simp only [List.length_cons] at h; omega)
    have hd : (xs.drop (k - 1)).length ≤ xs.length := by
      rw [List.length_drop]; omega
    omega

theorem chunk_length_lt {α : Type} {k : Nat} (hk : 2 ≤ k) (l : List α)
    (h2 : 2 ≤ l.length) : (chunk k l).length < l.length := by
  cases l with
  | nil => simp at h2
  | cons x xs =>
    rw [chunk_cons]
    simp only [List.length_cons]
    have hle := chunk_length_le k (xs.drop (k - 1)).length (xs.drop (k - 1)) le_rfl
    have hd : (xs.drop (k - 1)).length ≤ xs.length - 1 := by
      rw [List.length_drop]
      simp only [List.length_cons] at h2
      omega
    simp only [List.length_cons] at h2
    omega

theorem chunk_single {α : Type} {k : Nat} {l : List α} (h1 : l ≠ []) (h2 : l.length ≤ k) :
    chunk k l = [l] := by
  cases l with
  | nil => exact absurd rfl h1
  | cons x xs =>
    rw [chunk_cons]
    have hxs : xs.length ≤ k - 1 := by
      simp only [List.length_cons] at h2
      omega
    rw [List.take_all_of_le hxs, List.drop_eq_nil_of_le hxs, chunk_nil]

theorem chunk_forall₂ {α β : Type} {r : α → β → Prop} (k : Nat) : ∀ (n : Nat) (as : List α)
    (bs : List β), as.length ≤ n → List.Forall₂ r as bs →
    List.Forall₂ (List.Forall₂ r) (chunk k as) (chunk k bs)
  | _, [], bs, _, hF => by
    cases hF
    rw [chunk_nil, chunk_nil]
    exact List.Forall₂.nil
  | 0, a :: as, _, h, _ => absurd h (by simp)
  | n + 1, a :: as, _, h, List.Forall₂.cons hab hF' => by
    rw [chunk_cons, chunk_cons]
    refine List.Forall₂.cons (List.Forall₂.cons hab (List.forall₂_take _ hF')) ?_
    exact chunk_forall₂ k n _ _
      (by rw [List.length_drop]; simp only [List.length_cons] at h; omega)
      (List.forall₂_drop _ hF')

/-! ## Specification of phase 1 (`CreateInitialRuns`) -/

theorem tempName_injective : Function.Injective tempName :=
  fun _ _ h => tempName_inj h

theorem createRunsLoop_nil (budget : Nat) (fp : T → Nat) (asc : Bool) (bufCap : Nat) :
    ∀ (fuel : Nat) (acc : List String) (st : MemFactory T),
    createRunsLoop budget fp asc bufCap fuel [] acc st = .ok acc.reverse st := by
  intro fuel acc st
  cases fuel <;> rfl

theorem createRunsLoop_cons {budget : Nat} {fp : T → Nat} (asc : Bool) (bufCap : Nat)
    {x : T} {rest run rem : List T} (fuel : Nat) (acc : List String) (st : MemFactory T)
    (hbr : buildRun budget fp (x :: rest) 0 [] = .ok (run, rem))
    (hne : run.isEmpty = false) :
    createRunsLoop budget fp asc bufCap (fuel + 1) (x :: rest) acc st =
      createRunsLoop budget fp asc bufCap fuel rem (tempName st.tempIdCounter :: acc)
        (memFinalize (tempName st.tempIdCounter) (sortRun asc run).length
          (memWriteAll (tempName st.tempIdCounter) (sortRun asc run)
            (memCreateTempOutput bufCap st).2)) := by
  rw [createRunsLoop]
  simp only [hbr, hne, Bool.false_eq_true, if_false]
  rfl

theorem createRunsLoop_spec {budget : Nat} {fp : T → Nat} (asc : Bool) (bufCap : Nat) :
    ∀ (fuel : Nat) (l : List T) (acc : List String) (st : MemFactory T),
    (∀ y ∈ l, fp y ≤ budget) → l.length ≤ fuel →
    ∃ (n : Nat) (st' : MemFactory T) (contents : List (List T)),
      createRunsLoop budget fp asc bufCap fuel l acc st =
        .ok (acc.reverse ++ (List.range' st.tempIdCounter n).map tempName) st' ∧
      st'.tempIdCounter = st.tempIdCounter + n ∧
      List.Forall₂ (entryIs st') ((List.range' st.tempIdCounter n).map tempName) contents ∧
      (∀ r ∈ contents, List.Sorted (ordR asc) r) ∧
      contents.flatten.Perm l ∧
      (∀ q : String,
        (∀ c : Nat, st.tempIdCounter ≤ c → c < st.tempIdCounter + n → q ≠ tempName c) →
        st'.storages q = st.storages q ∧ st'.declaredSizes q = st.declaredSizes q) ∧
      (l ≠ [] → 1 ≤ n)
  | fuel, [], acc, st, _, _ => by
    refine ⟨0, st, [], ?_, by omega, ?_, by simp, by simp, fun q _ => ⟨rfl, rfl⟩, by simp⟩
    · rw [createRunsLoop_nil]
      simp
    · simp
  | 0, x :: rest, _, _, _, hfuel => absurd hfuel (by simp)
  | fuel + 1, x :: rest, acc, st, hbud, hfuel => by
    obtain ⟨run, rem, hbr⟩ := buildRun_ok_of_le hbud 0 []
    obtain ⟨t, hrun, hrest⟩ := buildRun_first_cons hbr
    have hne : run.isEmpty = false := by rw [hrun]; rfl
    have hunfold := createRunsLoop_cons asc bufCap fuel acc st hbr hne
    have hmint := mint_state bufCap st
    obtain ⟨hm1, hm2, hm3, hm4, hm5⟩ := hmint
    have hfin := finWrite_state (tempName st.tempIdCounter) (sortRun asc run)
      (memCreateTempOutput bufCap st).2 hm2
    obtain ⟨hf1, hf2, hf3, hf4⟩ := hfin
    have hc3 : (memFinalize (tempName st.tempIdCounter) (sortRun asc run).length
        (memWriteAll (tempName st.tempIdCounter) (sortRun asc run)
          (memCreateTempOutput bufCap st).2)).tempIdCounter = st.tempIdCounter + 1 := by
      rw [hf3, hm4]
    have hbud' : ∀ y ∈ rem, fp y ≤ budget := by
      intro y hy
      apply hbud
      rw [hrest] at *
      exact List.mem_cons_of_mem _ (List.mem_append.mpr (Or.inr hy))
    have hfuel' : rem.length ≤ fuel := by
      have : rest.length = t.length + rem.length := by rw [hrest]; simp
      simp only [List.length_cons] at hfuel
      omega
    obtain ⟨n', st'', contents', heq, hcnt, hF, hsort, hperm, hframe, _⟩ :=
      createRunsLoop_spec asc bufCap fuel rem (tempName st.tempIdCounter :: acc)
        (memFinalize (tempName st.tempIdCounter) (sortRun asc run).length
          (memWriteAll (tempName st.tempIdCounter) (sortRun asc run)
            (memCreateTempOutput bufCap st).2)) hbud' hfuel'
    rw [hc3] at hcnt hF heq hframe
    refine ⟨n' + 1, st'', sortRun asc run :: contents', ?_, by omega, ?_, ?_, ?_, ?_, by simp⟩
    · rw [hunfold, heq]
      rw [List.range'_succ]
      simp [List.append_assoc]
    · rw [List.range'_succ]
      simp only [List.map_cons]
      refine List.Forall₂.cons ?_ hF
      have hfr := hframe (tempName st.tempIdCounter) ?side
      case side =>
        intro c hc1 hc2 heqt
        have := tempName_inj heqt
        omega
      constructor
      · rw [hfr.1, hf1]
      · rw [hfr.2, hf2]
    · intro r hr
      rcases List.mem_cons.mp hr with rfl | hr'
      · exact sortRun_sorted asc run
      · exact hsort r hr'
    · simp only [List.flatten_cons]
      have hxr : x :: rest = run ++ rem := by
        rw [hrun, hrest]
        rfl
      rw [hxr]
      exact (sortRun_perm asc run).append hperm
    · intro q hq
      have hq' : ∀ c : Nat, st.tempIdCounter + 1 ≤ c →
          c < st.tempIdCounter + 1 + n' → q ≠ tempName c := by
        intro c hc1 hc2
        exact hq c (by omega) (by omega)
      have h1 := hframe q hq'
      have hqtid : q ≠ tempName st.tempIdCounter := hq st.tempIdCounter le_rfl (by omega)
      have h2 := hf4 q hqtid
      have h3 := hm5 q hqtid
      exact ⟨h1.1.trans (h2.1.trans h3.1), h1.2.trans (h2.2.trans h3.2)⟩

theorem createRunsLoop_heavy {budget : Nat} {fp : T → Nat} (asc : Bool) (bufCap : Nat) :
    ∀ (fuel : Nat) (l : List T) (acc : List String) (st : MemFactory T),
    (∃ y ∈ l, budget < fp y) → l.length ≤ fuel →
    ∃ st', createRunsLoop budget fp asc bufCap fuel l acc st =
        .err (.memoryLimitExceeded
          "KWayMergeSorter: Memory limit is too small for a single element.") st' ∧
      (∀ q : String, (∀ c : Nat, st.tempIdCounter ≤ c → q ≠ tempName c) →
        st'.storages q = st.storages q ∧ st'.declaredSizes q = st.declaredSizes q)
  | _, [], _, _, hy, _ => absurd hy (by simp)
  | 0, x :: rest, _, _, _, hfuel => absurd hfuel (by simp)
  | fuel + 1, x :: rest, acc, st, hy, hfuel => by
    rcases buildRun_heavy hy 0 [] with ⟨e, herr⟩ | ⟨run, rem, hok, hyrem⟩
    · have he := buildRun_err_eq herr
      subst he
      refine ⟨st, ?_, fun q _ => ⟨rfl, rfl⟩⟩
      rw [createRunsLoop, herr]
    · obtain ⟨t, hrun, hrest⟩ := buildRun_first_cons hok
      have hne : run.isEmpty = false := by rw [hrun]; rfl
      have hunfold := createRunsLoop_cons asc bufCap fuel acc st hok hne
      have hmint := mint_state bufCap st
      obtain ⟨hm1, hm2, hm3, hm4, hm5⟩ := hmint
      have hfin := finWrite_state (tempName st.tempIdCounter) (sortRun asc run)
        (memCreateTempOutput bufCap st).2 hm2
      obtain ⟨hf1, hf2, hf3, hf4⟩ := hfin
      have hc3 : (memFinalize (tempName st.tempIdCounter) (sortRun asc run).length
          (memWriteAll (tempName st.tempIdCounter) (sortRun asc run)
            (memCreateTempOutput bufCap st).2)).tempIdCounter = st.tempIdCounter + 1 := by
        rw [hf3, hm4]
      have hfuel' : rem.length ≤ fuel := by
        have : rest.length = t.length + rem.length := by rw [hrest]; simp
        simp only [List.length_cons] at hfuel
        omega
      obtain ⟨st'', heq, hframe⟩ :=
        createRunsLoop_heavy asc bufCap fuel rem (tempName st.tempIdCounter :: acc)
          (memFinalize (tempName st.tempIdCounter) (sortRun asc run).length
            (memWriteAll (tempName st.tempIdCounter) (sortRun asc run)
              (memCreateTempOutput bufCap st).2)) hyrem hfuel'
      rw [hc3] at hframe
      refine ⟨st'', by rw [hunfold, heq], ?_⟩
      intro q hq
      have hq' : ∀ c : Nat, st.tempIdCounter + 1 ≤ c → q ≠ tempName c := by
        intro c hc
        exact hq c (by omega)
      have h1 := hframe q hq'
      have hqtid : q ≠ tempName st.tempIdCounter := hq st.tempIdCounter le_rfl
      have h2 := hf4 q hqtid
      have h3 := hm5 q hqtid
      exact ⟨h1.1.trans (h2.1.trans h3.1), h1.2.trans (h2.2.trans h3.2)⟩

/-! ## Specification of `MergeGroupOfRuns` and the merge passes -/

theorem readGroup_ok (bufCap : Nat) {st : MemFactory T} : ∀ {ids : List String}
    {cs : List (List T)}, List.Forall₂ (entryIs st) ids cs →
    readGroup bufCap ids st = .ok cs := by
  intro ids cs hF
  induction hF with
  | nil => rfl
  | @cons a b l1 l2 h1 h2 ih =>
    rw [readGroup]
    have hread : memCreateInput a bufCap st = .ok b := by
      rw [memCreateInput, h1.1, h1.2]
      simp
    rw [hread, ih]

theorem outWrite_state (id : String) (l : List T) (bufCap : Nat) (st : MemFactory T) :
    (memFinalize id l.length (memWriteAll id l (memCreateOutput id bufCap st))).storages id
        = some l ∧
    (memFinalize id l.length (memWriteAll id l (memCreateOutput id bufCap st))).declaredSizes id
        = some l.length ∧
    (memFinalize id l.length (memWriteAll id l (memCreateOutput id bufCap st))).tempIdCounter
        = st.tempIdCounter ∧
    (∀ q, q ≠ id →
      (memFinalize id l.length (memWriteAll id l (memCreateOutput id bufCap st))).storages q
          = st.storages q ∧
      (memFinalize id l.length (memWriteAll id l (memCreateOutput id bufCap st))).declaredSizes q
          = st.declaredSizes q) := by
  obtain ⟨hc1, hc2, hc3, hc4⟩ := memCreateOutput_state id bufCap st
  obtain ⟨hf1, hf2, hf3, hf4⟩ := finWrite_state id l (memCreateOutput id bufCap st) hc1
  refine ⟨hf1, hf2, hf3.trans hc3, ?_⟩
  intro q hq
  exact ⟨(hf4 q hq).1.trans (hc4 q hq).1, (hf4 q hq).2.trans (hc4 q hq).2⟩

theorem mergeGroupOfRuns_spec (asc : Bool) (bufCap : Nat) {groupIds : List String}
    {cs : List (List T)} {st : MemFactory T} (hF : List.Forall₂ (entryIs st) groupIds cs)
    (outId : String) :
    mergeGroupOfRuns asc bufCap groupIds outId st =
      .ok () (memFinalize outId (mergeAll asc cs).length
        (memWriteAll outId (mergeAll asc cs) (memCreateOutput outId bufCap st))) := by
  rw [mergeGroupOfRuns, readGroup_ok bufCap hF]

theorem forall₂_entry_transfer {st st' : MemFactory T} {ids : List String}
    {cs : List (List T)} (hF : List.Forall₂ (entryIs st) ids cs)
    (h : ∀ id ∈ ids, st'.storages id = st.storages id ∧
      st'.declaredSizes id = st.declaredSizes id) :
    List.Forall₂ (entryIs st') ids cs := by
  induction hF with
  | nil => exact List.Forall₂.nil
  | @cons a b l1 l2 h1 h2 ih =>
    refine List.Forall₂.cons ?_ (ih (fun id hid => h id (List.mem_cons_of_mem _ hid)))
    have ha := h a (List.mem_cons_self _ _)
    exact ⟨ha.1.trans h1.1, ha.2.trans h1.2⟩

theorem forall₂₂_entry_transfer {st st' : MemFactory T} {gs : List (List String)}
    {css : List (List (List T))}
    (hF : List.Forall₂ (List.Forall₂ (entryIs st)) gs css)
    (h : ∀ id ∈ gs.flatten, st'.storages id = st.storages id ∧
      st'.declaredSizes id = st.declaredSizes id) :
    List.Forall₂ (List.Forall₂ (entryIs st')) gs css := by
  induction hF with
  | nil => exact List.Forall₂.nil
  | @cons a b l1 l2 h1 h2 ih =>
    refine List.Forall₂.cons
      (forall₂_entry_transfer h1 (fun id hid => h id
        (by rw [List.flatten_cons]; exact List.mem_append.mpr (Or.inl hid))))
      (ih (fun id hid => h id
        (by rw [List.flatten_cons]; exact List.mem_append.mpr (Or.inr hid))))

theorem processChunks_nil (asc : Bool) (bufCap : Nat) (outputId : String) (small : Bool)
    (idx : Nat) (st : MemFactory T) :
    processChunks asc bufCap outputId small ([] : List (List String)) idx st = .ok [] st :=
  rfl

theorem processChunks_cons_notSmall (asc : Bool) (bufCap : Nat) (outputId : String)
    {g : List String} (hne : g.isEmpty = false) (gs : List (List String)) (idx : Nat)
    (st : MemFactory T) :
    processChunks asc bufCap outputId false (g :: gs) idx st =
      (match mergeGroupOfRuns asc bufCap g (tempName st.tempIdCounter)
          (memFinalize (tempName st.tempIdCounter) 0 (memCreateTempOutput bufCap st).2) with
       | .err e s => .err e s
       | .ok _ st2 =>
         match processChunks asc bufCap outputId false gs (idx + 1) st2 with
         | .err e s => .err e s
         | .ok nextIds st3 => .ok (tempName st.tempIdCounter :: nextIds) st3) := by
  rw [processChunks]
  rw [if_neg (by simp [hne])]
  rfl

theorem processChunks_single_final (asc : Bool) (bufCap : Nat) (outputId : String)
    {g : List String} (hne : g.isEmpty = false) (st : MemFactory T) :
    processChunks asc bufCap outputId true [g] 0 st =
      (match mergeGroupOfRuns asc bufCap g outputId st with
       | .err e s => .err e s
       | .ok _ st2 => .ok [outputId] st2) := by
  rw [processChunks]
  rw [if_neg (by simp [hne])]
  show (match mergeGroupOfRuns asc bufCap g outputId st with
    | MRes.err e s => MRes.err e s
    | MRes.ok _ st2 =>
      match processChunks asc bufCap outputId true ([] : List (List String)) (0 + 1) st2 with
      | MRes.err e s => MRes.err e s
      | MRes.ok nextIds st3 => MRes.ok (outputId :: nextIds) st3) = _
  cases mergeGroupOfRuns asc bufCap g outputId st with
  | err e s => rfl
  | ok a s => rfl

theorem processChunks_notSmall (asc : Bool) (bufCap : Nat) (outputId : String) :
    ∀ (gs : List (List String)) (css : List (List (List T))) (idx : Nat) (st : MemFactory T),
    List.Forall₂ (List.Forall₂ (entryIs st)) gs css →
    (∀ g ∈ gs, g ≠ []) →
    (∀ id ∈ gs.flatten, ∃ c : Nat, c < st.tempIdCounter ∧ id = tempName c) →
    ∃ st',
      processChunks asc bufCap outputId false gs idx st =
        .ok ((List.range' st.tempIdCounter gs.length).map tempName) st' ∧
      st'.tempIdCounter = st.tempIdCounter + gs.length ∧
      List.Forall₂ (entryIs st') ((List.range' st.tempIdCounter gs.length).map tempName)
        (css.map (mergeAll asc)) ∧
      (∀ q : String,
        (∀ c : Nat, st.tempIdCounter ≤ c → c < st.tempIdCounter + gs.length →
          q ≠ tempName c) →
        st'.storages q = st.storages q ∧ st'.declaredSizes q = st.declaredSizes q)
  | [], css, idx, st, hF, _, _ => by
    cases hF
    refine ⟨st, ?_, by simp, ?_, fun q _ => ⟨rfl, rfl⟩⟩
    · rw [processChunks_nil]
      simp
    · simp
  | g :: gs', css0, idx, st, hF, hne, hmint => by
    cases hF with
    | @cons _ cg _ css' hg hF' =>
    have hgne : g ≠ [] := hne g (List.mem_cons_self _ _)
    have hgisEmpty : g.isEmpty = false := by
      cases g with
      | nil => exact absurd rfl hgne
      | cons _ _ => rfl
    have hmemg : ∀ id ∈ g, ∃ c : Nat, c < st.tempIdCounter ∧ id = tempName c := by
      intro id hid
      exact hmint id (by rw [List.flatten_cons]; exact List.mem_append.mpr (Or.inl hid))
    have hmemgs : ∀ id ∈ gs'.flatten, ∃ c : Nat, c < st.tempIdCounter ∧ id = tempName c := by
      intro id hid
      exact hmint id (by rw [List.flatten_cons]; exact List.mem_append.mpr (Or.inr hid))
    rw [processChunks_cons_notSmall asc bufCap outputId hgisEmpty gs' idx st]
    obtain ⟨hm1, hm2, hm3, hm4, hm5⟩ := mint_state bufCap st
    set tid := tempName st.tempIdCounter with htid
    set stA := memFinalize tid 0 (memCreateTempOutput bufCap st).2 with hstA
    have hAframe : ∀ q, q ≠ tid →
        stA.storages q = st.storages q ∧ stA.declaredSizes q = st.declaredSizes q := by
      intro q hq
      refine ⟨(hm5 q hq).1, ?_⟩
      show upd _ tid (some 0) q = _
      rw [upd_ne _ _ _ hq]
      exact (hm5 q hq).2
    have hAcounter : stA.tempIdCounter = st.tempIdCounter + 1 := hm4
    have hid_ne_tid : ∀ id ∈ g, id ≠ tid := by
      intro id hid heq
      obtain ⟨c, hc, rfl⟩ := hmemg id hid
      exact absurd (tempName_inj heq) (by omega)
    have hFA : List.Forall₂ (entryIs stA) g cg :=
      forall₂_entry_transfer hg (fun id hid => hAframe id (hid_ne_tid id hid))
    rw [mergeGroupOfRuns_spec asc bufCap hFA tid]
    obtain ⟨hB1, hB2, hB3, hB4⟩ := outWrite_state tid (mergeAll asc cg) bufCap stA
    set stB := memFinalize tid (mergeAll asc cg).length
      (memWriteAll tid (mergeAll asc cg) (memCreateOutput tid bufCap stA)) with hstB
    have hBcounter : stB.tempIdCounter = st.tempIdCounter + 1 := hB3.trans hAcounter
    have hBframe : ∀ q, q ≠ tid →
        stB.storages q = st.storages q ∧ stB.declaredSizes q = st.declaredSizes q := by
      intro q hq
      exact ⟨(hB4 q hq).1.trans (hAframe q hq).1, (hB4 q hq).2.trans (hAframe q hq).2⟩
    have hgs_ne_tid : ∀ id ∈ gs'.flatten, id ≠ tid := by
      intro id hid heq
      obtain ⟨c, hc, rfl⟩ := hmemgs id hid
      exact absurd (tempName_inj heq) (by omega)
    have hF'B : List.Forall₂ (List.Forall₂ (entryIs stB)) gs' css' :=
      forall₂₂_entry_transfer hF' (fun id hid => hBframe id (hgs_ne_tid id hid))
    have hne' : ∀ g' ∈ gs', g' ≠ [] := fun g' hg' => hne g' (List.mem_cons_of_mem _ hg')
    have hmint' : ∀ id ∈ gs'.flatten, ∃ c : Nat, c < stB.tempIdCounter ∧ id = tempName c := by
      intro id hid
      obtain ⟨c, hc, rfl⟩ := hmemgs id hid
      exact ⟨c, by omega, rfl⟩
    obtain ⟨st'', hpc, hcnt, hFnew, hframe⟩ :=
      processChunks_notSmall asc bufCap outputId gs' css' (idx + 1) stB hF'B hne' hmint'
    rw [hBcounter] at hpc hcnt hFnew hframe
    refine ⟨st'', ?_, ?_, ?_, ?_⟩
    · show (match processChunks asc bufCap outputId false gs' (idx + 1) stB with
          | MRes.err e s => MRes.err e s
          | MRes.ok nextIds st3 => MRes.ok (tid :: nextIds) st3) =
        MRes.ok ((List.range' st.tempIdCounter (g :: gs').length).map tempName) st''
      rw [hpc, List.length_cons, List.range'_succ, List.map_cons]
    · rw [hcnt]
      simp only [List.length_cons]
      omega
    · rw [List.length_cons, List.range'_succ, List.map_cons, List.map_cons]
      refine List.Forall₂.cons ?_ hFnew
      have hfr := hframe tid (by
        intro c hc1 hc2 heq
        exact absurd (tempName_inj heq) (by omega))
      exact ⟨hfr.1.trans hB1, hfr.2.trans hB2⟩
    · intro q hq
      simp only [List.length_cons] at hq
      have hq' : ∀ c : Nat, st.tempIdCounter + 1 ≤ c →
          c < st.tempIdCounter + 1 + gs'.length → q ≠ tempName c := by
        intro c h1 h2
        exact hq c (by omega) (by omega)
      have h1 := hframe q hq'
      have hqtid : q ≠ tid := hq st.tempIdCounter le_rfl (by omega)
      exact ⟨h1.1.trans (hBframe q hqtid).1, h1.2.trans (hBframe q hqtid).2⟩

theorem flatten_map_mergeAll_perm (asc : Bool) : ∀ (css : List (List (List T))),
    ((css.map (mergeAll asc)).flatten).Perm css.flatten.flatten
  | [] => List.Perm.refl _
  | c :: css' => by
    simp only [List.map_cons, List.flatten_cons, List.flatten_append]
    exact (mergeAll_perm asc c).append (flatten_map_mergeAll_perm asc css')

theorem mergePass_spec {asc : Bool} {bufCap k : Nat} {outputId : String} {input : List T}
    {ids : List String} {st : MemFactory T}
    (hinv : MLInv asc input ids st)
    (hout : ∀ c : Nat, outputId ≠ tempName c)
    (h2 : 2 ≤ ids.length) (hk : 2 ≤ k) :
    ∃ next st', mergePass asc bufCap k outputId ids st = .ok next st' ∧
      next.length < ids.length ∧
      ((next = [outputId] ∧ OutDone asc input outputId st') ∨
       (MLInv asc input next st' ∧ next ≠ [])) := by
  obtain ⟨hids, hnodup, ⟨contents, hF, hsorted, hperm⟩, hclean4⟩ := hinv
  have hidsne : ids ≠ [] := by
    intro h
    rw [h] at h2
    simp at h2
  by_cases hsmall : ids.length ≤ k
  · -- final pass: the single chunk is merged straight to the caller's output id
    have hchunk : chunk k ids = [ids] := chunk_single hidsne hsmall
    have hdec : decide (ids.length ≤ k) = true := decide_eq_true hsmall
    have hne : ids.isEmpty = false := by
      cases ids with
      | nil => exact absurd rfl hidsne
      | cons _ _ => rfl
    obtain ⟨hB1, hB2, hB3, hB4⟩ := outWrite_state outputId (mergeAll asc contents) bufCap st
    set stB := memFinalize outputId (mergeAll asc contents).length
      (memWriteAll outputId (mergeAll asc contents) (memCreateOutput outputId bufCap st))
      with hstB
    refine ⟨[outputId], deleteConsumed outputId ids stB, ?_, by simp; omega,
      Or.inl ⟨rfl, ⟨mergeAll asc contents, ?_, ?_, ?_, ?_⟩, ?_⟩⟩
    · rw [mergePass, hdec, hchunk]
      rw [processChunks_single_final asc bufCap outputId hne st]
      rw [mergeGroupOfRuns_spec asc bufCap hF outputId]
    · obtain ⟨hd1, hd2, hd3⟩ := deleteConsumed_state outputId ids stB outputId
      rw [hd1, if_neg (fun hcon => hcon.2 rfl)]
      exact hB1
    · obtain ⟨hd1, hd2, hd3⟩ := deleteConsumed_state outputId ids stB outputId
      rw [hd2, if_neg (fun hcon => hcon.2 rfl)]
      exact hB2
    · exact mergeAll_sorted hsorted
    · exact (mergeAll_perm asc contents).trans hperm
    · intro c
      obtain ⟨hd1, hd2, hd3⟩ := deleteConsumed_state outputId ids stB (tempName c)
      by_cases hmem : tempName c ∈ ids
      · have hcond : tempName c ∈ ids ∧ tempName c ≠ outputId :=
          ⟨hmem, fun h => hout c h.symm⟩
        exact ⟨by rw [hd1, if_pos hcond], by rw [hd2, if_pos hcond]⟩
      · have hcond : ¬(tempName c ∈ ids ∧ tempName c ≠ outputId) := fun h => hmem h.1
        have hb := hB4 (tempName c) (fun h => hout c h.symm)
        have hcl := hclean4 c hmem
        exact ⟨by rw [hd1, if_neg hcond, hb.1, hcl.1],
          by rw [hd2, if_neg hcond, hb.2, hcl.2]⟩
  · -- intermediate pass: every chunk goes to a freshly minted temp run
    have hdec : decide (ids.length ≤ k) = false := decide_eq_false hsmall
    have hgschunk := chunk_forall₂ k ids.length ids contents le_rfl hF
    have hnechunks := chunk_ne_nil k ids.length ids le_rfl
    have hk1 : 1 ≤ k := by omega
    have hmintable : ∀ id ∈ (chunk k ids).flatten,
        ∃ c : Nat, c < st.tempIdCounter ∧ id = tempName c := by
      rw [chunk_flatten hk1 ids.length ids le_rfl]
      exact hids
    obtain ⟨st', hpc, hcnt, hFnew, hframe⟩ :=
      processChunks_notSmall asc bufCap outputId (chunk k ids) (chunk k contents) 0 st
        hgschunk hnechunks hmintable
    have hchne : chunk k ids ≠ [] := by
      cases ids with
      | nil => exact absurd rfl hidsne
      | cons a as => rw [chunk_cons]; simp
    have hchpos : 0 < (chunk k ids).length := List.length_pos.mpr hchne
    refine ⟨(List.range' st.tempIdCounter (chunk k ids).length).map tempName,
      deleteConsumed outputId ids st', ?_, ?_, Or.inr ⟨⟨?_, ?_, ?_, ?_⟩, ?_⟩⟩
    · rw [mergePass, hdec, hpc]
    · simp only [List.length_map, List.length_range']
      exact chunk_length_lt hk ids h2
    · -- every live id was minted below the new counter
      intro id hid
      obtain ⟨c, hc, rfl⟩ := List.mem_map.mp hid
      obtain ⟨i, hi, rfl⟩ := List.mem_range'.mp hc
      obtain ⟨hd1, hd2, hd3⟩ :=
        deleteConsumed_state outputId ids st' (tempName (st.tempIdCounter + 1 * i))
      refine ⟨st.tempIdCounter + 1 * i, ?_, rfl⟩
      rw [hd3, hcnt]
      omega
    · exact List.Nodup.map tempName_injective (List.nodup_range' _ _)
    · -- contents of the new runs
      refine ⟨(chunk k contents).map (mergeAll asc), ?_, ?_, ?_⟩
      · refine forall₂_entry_transfer hFnew ?_
        intro id hid
        obtain ⟨c, hc, rfl⟩ := List.mem_map.mp hid
        obtain ⟨i, hi, rfl⟩ := List.mem_range'.mp hc
        obtain ⟨hd1, hd2, hd3⟩ :=
          deleteConsumed_state outputId ids st' (tempName (st.tempIdCounter + 1 * i))
        have hnotin : tempName (st.tempIdCounter + 1 * i) ∉ ids := by
          intro hmem
          obtain ⟨c', hc', heq⟩ := hids _ hmem
          have := tempName_inj heq.symm
          omega
        rw [hd1, hd2, if_neg (fun h => hnotin h.1), if_neg (fun h => hnotin h.1)]
        exact ⟨rfl, rfl⟩
      · intro r hr
        obtain ⟨cs, hcs, rfl⟩ := List.mem_map.mp hr
        apply mergeAll_sorted
        intro l hl
        apply hsorted
        have hmem : l ∈ (chunk k contents).flatten := List.mem_flatten.mpr ⟨cs, hcs, hl⟩
        rwa [chunk_flatten hk1 contents.length contents le_rfl] at hmem
      · have hp := flatten_map_mergeAll_perm asc (chunk k contents)
        rw [chunk_flatten hk1 contents.length contents le_rfl] at hp
        exact hp.trans hperm
    · -- no other temp entry survives
      intro c hc
      obtain ⟨hd1, hd2, hd3⟩ := deleteConsumed_state outputId ids st' (tempName c)
      by_cases hmem : tempName c ∈ ids
      · have hcond : tempName c ∈ ids ∧ tempName c ≠ outputId :=
          ⟨hmem, fun h => hout c h.symm⟩
        exact ⟨by rw [hd1, if_pos hcond], by rw [hd2, if_pos hcond]⟩
      · have hcond : ¬(tempName c ∈ ids ∧ tempName c ≠ outputId) := fun h => hmem h.1
        have hwin : ∀ c' : Nat, st.tempIdCounter ≤ c' →
            c' < st.tempIdCounter + (chunk k ids).length → tempName c ≠ tempName c' := by
          intro c' h1 h2 heq
          have hcc := tempName_inj heq
          apply hc
          apply List.mem_map.mpr
          refine ⟨c', List.mem_range'.mpr ⟨c' - st.tempIdCounter, by omega, by omega⟩, ?_⟩
          rw [hcc]
        have hfr := hframe (tempName c) hwin
        have hcl := hclean4 c hmem
        exact ⟨by rw [hd1, if_neg hcond, hfr.1, hcl.1],
          by rw [hd2, if_neg hcond, hfr.2, hcl.2]⟩
    · -- at least one run id is produced by the pass
      intro heq
      have := congrArg List.length heq
      simp only [List.length_map, List.length_range', List.length_nil] at this
      omega

theorem mergeLoopFuel_spec {asc : Bool} (bufCap : Nat) {k : Nat} {outputId : String}
    {input : List T} :
    ∀ (fuel : Nat) (ids : List String) (st : MemFactory T),
    MLInv asc input ids st → ids ≠ [] → ids.length ≤ fuel →
    (∀ c : Nat, outputId ≠ tempName c) → 2 ≤ k →
    (∃ tid st', mergeLoopFuel asc bufCap k outputId fuel ids st = .ok [tid] st' ∧
      MLInv asc input [tid] st') ∨
    (∃ st', mergeLoopFuel asc bufCap k outputId fuel ids st = .ok [outputId] st' ∧
      OutDone asc input outputId st')
  | 0, ids, st, _, hne, hfuel, _, _ => by
    have : ids = [] := List.eq_nil_of_length_eq_zero (by omega)
    exact absurd this hne
  | fuel + 1, ids, st, hinv, hne, hfuel, hout, hk => by
    rw [mergeLoopFuel]
    by_cases hlen : ids.length ≤ 1
    · rw [if_pos hlen]
      cases ids with
      | nil => exact absurd rfl hne
      | cons a as =>
        cases as with
        | nil => exact Or.inl ⟨a, st, rfl, hinv⟩
        | cons b bs => simp at hlen
    · rw [if_neg hlen]
      obtain ⟨next, st1, hmp, hlt, hcase⟩ := mergePass_spec hinv hout (by omega) hk
      rw [hmp]
      rcases hcase with ⟨rfl, hdone⟩ | ⟨hinv', hne'⟩
      · right
        refine ⟨st1, ?_, hdone⟩
        cases fuel with
        | zero => simp [mergeLoopFuel]
        | succ f => simp [mergeLoopFuel]
      · exact mergeLoopFuel_spec bufCap fuel next st1 hinv' hne' (by omega) hout hk

/-- Master correctness lemma for `Sort()` over the in-memory factory: under a
valid configuration the sort succeeds, stores exactly the sorted permutation
of the input at the output id with a matching declared size, and leaves no
temp entry behind. -/
theorem sorterSort_master {budget k bufCap : Nat} {fp : T → Nat} {asc : Bool}
    {inputId outputId : String} {st : MemFactory T} {input : List T}
    (hk : 2 ≤ k)
    (hin : memCreateInput inputId bufCap st = .ok input)
    (hbud : ∀ y ∈ input, fp y ≤ budget)
    (hout : ∀ c : Nat, outputId ≠ tempName c)
    (hclean : NoTempEntries st) :
    ∃ st', sorterSort budget fp k bufCap asc inputId outputId st = .ok () st' ∧
      st'.storages outputId = some (sortRun asc input) ∧
      st'.declaredSizes outputId = some input.length ∧
      NoTempEntries st' := by
  cases input with
  | nil =>
    refine ⟨memFinalize outputId 0 (memCreateOutput outputId bufCap st), ?_, ?_, ?_, ?_⟩
    · rw [sorterSort, createInitialRuns]
      simp only [hin, List.isEmpty_nil, if_true]
    · show upd st.storages outputId (some []) outputId = _
      rw [upd_same]
      rfl
    · show upd (upd st.declaredSizes outputId (some 0)) outputId (some 0) outputId = _
      rw [upd_same]
      rfl
    · intro c
      have hne : tempName c ≠ outputId := fun h => hout c h.symm
      constructor
      · show upd st.storages outputId (some []) (tempName c) = none
        rw [upd_ne _ _ _ hne]
        exact (hclean c).1
      · show upd (upd st.declaredSizes outputId (some 0)) outputId (some 0) (tempName c) = none
        rw [upd_ne _ _ _ hne, upd_ne _ _ _ hne]
        exact (hclean c).2
  | cons x xs =>
    obtain ⟨n, stR, contents, heqR, hcntR, hFR, hsortR, hpermR, hframeR, hposR⟩ :=
      createRunsLoop_spec asc bufCap (x :: xs).length (x :: xs) [] st hbud le_rfl
    have hn1 : 1 ≤ n := hposR (by simp)
    simp only [List.reverse_nil, List.nil_append] at heqR
    have hrne : (List.range' st.tempIdCounter n).map tempName ≠ [] := by
      intro h
      have := congrArg List.length h
      simp only [List.length_map, List.length_range', List.length_nil] at this
      omega
    have hie : ((List.range' st.tempIdCounter n).map tempName).isEmpty = false :=
      List.isEmpty_eq_false.mpr hrne
    have hinv : MLInv asc (x :: xs) ((List.range' st.tempIdCounter n).map tempName) stR := by
      refine ⟨?_, List.Nodup.map tempName_injective (List.nodup_range' _ _),
        ⟨contents, hFR, hsortR, hpermR⟩, ?_⟩
      · intro id hid
        obtain ⟨c, hc, rfl⟩ := List.mem_map.mp hid
        obtain ⟨i, hi, rfl⟩ := List.mem_range'.mp hc
        exact ⟨_, by omega, rfl⟩
      · intro c hc
        have hwin : ∀ c' : Nat, st.tempIdCounter ≤ c' → c' < st.tempIdCounter + n →
            tempName c ≠ tempName c' := by
          intro c' h1 h2 heq
          apply hc
          apply List.mem_map.mpr
          refine ⟨c', List.mem_range'.mpr ⟨c' - st.tempIdCounter, by omega, by omega⟩, ?_⟩
          rw [tempName_inj heq]
        have hfr := hframeR (tempName c) hwin
        exact ⟨hfr.1.trans (hclean c).1, hfr.2.trans (hclean c).2⟩
    rcases mergeLoopFuel_spec bufCap ((List.range' st.tempIdCounter n).map tempName).length
        ((List.range' st.tempIdCounter n).map tempName) stR hinv hrne le_rfl hout hk with
      ⟨tid, st', heqML, hinv'⟩ | ⟨st', heqML, hdone⟩
    · obtain ⟨hids', _, ⟨contents', hF', hsort', hperm'⟩, hclean4'⟩ := hinv'
      cases hF' with
      | cons hentry hrest =>
        cases hrest
        rename_i m
        have hm_perm : m.Perm (x :: xs) := by simpa using hperm'
        have hm_sorted : List.Sorted (ordR asc) m := hsort' m (by simp)
        have hm_eq : m = sortRun asc (x :: xs) := sorted_perm_eq_sortRun hm_perm hm_sorted
        obtain ⟨ctid, hctid, rfl⟩ := hids' tid (by simp)
        have htidne : tempName ctid ≠ outputId := fun h => hout ctid h.symm
        refine ⟨memDeleteStorage (tempName ctid)
          { st' with storages := upd st'.storages outputId (some m),
                     declaredSizes := upd st'.declaredSizes outputId (some m.length) },
          ?_, ?_, ?_, ?_⟩
        · rw [sorterSort, createInitialRuns]
          simp only [hin, List.isEmpty_cons, Bool.false_eq_true, if_false, heqR, hie,
            heqML, if_neg htidne]
          rw [memMakePermanent, if_neg htidne, hentry.1, hentry.2]
        · show upd (upd st'.storages outputId (some m)) (tempName ctid) none outputId = _
          rw [upd_ne _ _ _ (hout ctid), upd_same, hm_eq]
        · show upd (upd st'.declaredSizes outputId (some m.length))
            (tempName ctid) none outputId = _
          rw [upd_ne _ _ _ (hout ctid), upd_same, hm_perm.length_eq]
        · intro c
          by_cases hceq : tempName c = tempName ctid
          · refine ⟨?_, ?_⟩
            · show upd (upd st'.storages outputId (some m)) (tempName ctid) none
                (tempName c) = none
              rw [hceq, upd_same]
            · show upd (upd st'.declaredSizes outputId (some m.length)) (tempName ctid) none
                (tempName c) = none
              rw [hceq, upd_same]
          · have hcne_out : tempName c ≠ outputId := fun h => hout c h.symm
            have hcl := hclean4' c (by simp [hceq])
            refine ⟨?_, ?_⟩
            · show upd (upd st'.storages outputId (some m)) (tempName ctid) none
                (tempName c) = none
              rw [upd_ne _ _ _ hceq, upd_ne _ _ _ hcne_out]
              exact hcl.1
            · show upd (upd st'.declaredSizes outputId (some m.length)) (tempName ctid) none
                (tempName c) = none
              rw [upd_ne _ _ _ hceq, upd_ne _ _ _ hcne_out]
              exact hcl.2
    · obtain ⟨⟨m, hm1, hm2, hmsort, hmperm⟩, hnt⟩ := hdone
      have hm_eq : m = sortRun asc (x :: xs) := sorted_perm_eq_sortRun hmperm hmsort
      refine ⟨st', ?_, ?_, ?_, hnt⟩
      · rw [sorterSort, createInitialRuns]
        simp only [hin, List.isEmpty_cons, Bool.false_eq_true, if_false, heqR, hie, heqML]
        simp
      · rw [hm1, hm_eq]
      · rw [hm2, hmperm.length_eq]

/-! ## The file-backed output stream keeps its header accurate -/

theorem fileOutputWrite_inv {written : List T} {st : FileOutputModel T} (x : T)
    (h : FileOutInv written st) :
    ∃ st', fileOutputWrite x st = .ok st' ∧ FileOutInv (written ++ [x]) st' := by
  obtain ⟨hfin, hbody, htot, hlt⟩ := h
  rw [fileOutputWrite, if_neg (by simp [hfin])]
  simp only [if_pos hlt]
  by_cases hfull : (st.buf ++ [x]).length = st.bufCap
  · rw [if_pos hfull, fileFlushBufferInternal, if_neg (by simp [hfin])]
    refine ⟨_, rfl, hfin, ?_, ?_, ?_⟩
    · show (st.bodyOnDisk ++ (st.buf ++ [x])) ++ [] = written ++ [x]
      rw [List.append_nil, ← List.append_assoc, hbody]
    · show st.totalElementsWritten + 1 = (written ++ [x]).length
      rw [htot, List.length_append, List.length_singleton]
    · show ([] : List T).length < st.bufCap
      simp only [List.length_nil]
      omega
  · rw [if_neg hfull]
    refine ⟨_, rfl, hfin, ?_, ?_, ?_⟩
    · show st.bodyOnDisk ++ (st.buf ++ [x]) = written ++ [x]
      rw [← List.append_assoc, hbody]
    · show st.totalElementsWritten + 1 = (written ++ [x]).length
      rw [htot, List.length_append, List.length_singleton]
    · show (st.buf ++ [x]).length < st.bufCap
      rw [List.length_append, List.length_singleton]
      rw [List.length_append, List.length_singleton] at hfull
      omega

theorem fileOutputWriteAll_inv : ∀ (l : List T) {written : List T} {st : FileOutputModel T},
    FileOutInv written st →
    ∃ st', fileOutputWriteAll l st = .ok st' ∧ FileOutInv (written ++ l) st'
  | [], written, st, h => ⟨st, rfl, by simpa using h⟩
  | x :: xs, written, st, h => by
    obtain ⟨st1, heq1, hinv1⟩ := fileOutputWrite_inv x h
    obtain ⟨st', heq', hinv'⟩ := fileOutputWriteAll_inv xs hinv1
    refine ⟨st', ?_, ?_⟩
    · rw [fileOutputWriteAll]
      simp only [heq1]
      exact heq'
    · rw [List.append_assoc] at hinv'
      exact hinv'

theorem fileOutputNew_inv (nm : String) (cap : Nat) :
    FileOutInv [] (fileOutputNew nm cap : FileOutputModel T) :=
  ⟨rfl, rfl, rfl, Nat.lt_of_lt_of_le Nat.zero_lt_one (le_max_left 1 cap)⟩

theorem fileFlush_inv {written : List T} {st : FileOutputModel T} (h : FileOutInv written st) :
    (fileFlushBufferInternal st).bodyOnDisk = written ∧
    (fileFlushBufferInternal st).totalElementsWritten = st.totalElementsWritten := by
  obtain ⟨hfin, hbody, htot, hlt⟩ := h
  by_cases hbe : st.buf.isEmpty = true
  · rw [fileFlushBufferInternal, if_pos (by simp [hbe])]
    have hb : st.buf = [] := by
      cases hbuf : st.buf with
      | nil => rfl
      | cons y ys => rw [hbuf] at hbe; exact absurd hbe (by simp)
    rw [hb, List.append_nil] at hbody
    exact ⟨hbody, rfl⟩
  · rw [fileFlushBufferInternal, if_neg (by simp [hbe, hfin])]
    exact ⟨hbody, rfl⟩

theorem fileOutputFinalize_spec {written : List T} {st : FileOutputModel T}
    (h : FileOutInv written st) :
    (fileOutputFinalize st).headerOnDisk = written.length ∧
    fileReadBackAll (fileOutputFinalize st) = written ∧
    (fileOutputFinalize st).finalized = true := by
  obtain ⟨hb, ht⟩ := fileFlush_inv h
  rw [fileOutputFinalize, if_neg (by simp [h.1])]
  refine ⟨?_, ?_, rfl⟩
  · show (fileFlushBufferInternal st).totalElementsWritten = written.length
    rw [ht, h.2.2.1]
  · show ((fileFlushBufferInternal st).bodyOnDisk).take
      (fileFlushBufferInternal st).totalElementsWritten = written
    rw [hb, ht, h.2.2.1, List.take_length]

/-! ## Facts about the concrete witness factories -/

theorem out_ne_temp : ∀ c : Nat, "out" ≠ tempName c :=
  fun c => (tempName_ne_of_short (by decide) c).symm

theorem wFactoryA_noTemp : NoTempEntries wFactoryA := by
  intro c
  have h : tempName c ≠ "in" := tempName_ne_of_short (by decide) c
  constructor
  · show (if tempName c = "in" then some [3, 1, 2] else none) = none
    exact if_neg h
  · show (if tempName c = "in" then some 3 else none) = none
    exact if_neg h

theorem wFactoryB_noTemp : NoTempEntries wFactoryB := by
  intro c
  have h : tempName c ≠ "in" := tempName_ne_of_short (by decide) c
  constructor
  · show (if tempName c = "in" then some [5, 1] else none) = none
    exact if_neg h
  · show (if tempName c = "in" then some 2 else none) = none
    exact if_neg h

theorem wFactoryC_noTemp : NoTempEntries wFactoryC := by
  intro c
  have h : tempName c ≠ "in" := tempName_ne_of_short (by decide) c
  constructor
  · show (if tempName c = "in" then some [] else none) = none
    exact if_neg h
  · show (if tempName c = "in" then some 0 else none) = none
    exact if_neg h

/-! ## The claims -/

/-- C1: for every input sequence and every valid sorter configuration
(`k ≥ 2`, memory budget at least every single record's footprint, output id
not under the temp namespace, factory clean of temp entries), after
`KWayMergeSorter::Sort()` returns the sequence stored at the output id
satisfies `s[i] ≤ s[i+1]` for consecutive records when `ascending = true`,
and `s[i] ≥ s[i+1]` when `ascending = false`. -/
theorem sorter_output_sorted {budget k bufCap : Nat} {fp : T → Nat} {asc : Bool}
    {inputId outputId : String} {st : MemFactory T} {input : List T}
    (hk : 2 ≤ k) (hin : memCreateInput inputId bufCap st = .ok input)
    (hbud : ∀ y ∈ input, fp y ≤ budget) (hout : ∀ c : Nat, outputId ≠ tempName c)
    (hclean : NoTempEntries st) :
    ∃ (st' : MemFactory T) (out : List T),
      sorterSort budget fp k bufCap asc inputId outputId st = .ok () st' ∧
      st'.storages outputId = some out ∧
      (asc = true → consecLe out) ∧ (asc = false → consecGe out) := by
  obtain ⟨st', heq, hsto, _, _⟩ := sorterSort_master hk hin hbud hout hclean
  refine ⟨st', sortRun asc input, heq, hsto, ?_, ?_⟩
  · rintro rfl
    exact consecLe_of_sorted (sortRun_sorted true input)
  · rintro rfl
    exact consecGe_of_sorted (sortRun_sorted false input)

/-- Witness for C1 on the concrete factory holding `[3, 1, 2]`. -/
theorem sorter_output_sorted_witness :
    (2 ≤ 2 ∧ memCreateInput "in" 2 wFactoryA = .ok [3, 1, 2] ∧
      (∀ y ∈ [3, 1, 2], (fun _ : Nat => 1) y ≤ 8)) ∧
    ∃ (st' : MemFactory Nat) (out : List Nat),
      sorterSort 8 (fun _ => 1) 2 2 true "in" "out" wFactoryA = .ok () st' ∧
      st'.storages "out" = some out ∧
      (true = true → consecLe out) ∧ (true = false → consecGe out) :=
  ⟨⟨by decide, rfl, by decide⟩,
    sorter_output_sorted (by decide) rfl (by decide) out_ne_temp wFactoryA_noTemp⟩

/-- C2: for every input sequence and every valid sorter configuration, after
`Sort()` returns the multiset of records stored at the output id equals the
multiset that was stored at the input id: no record is lost and none is
duplicated. -/
theorem sorter_output_permutation {budget k bufCap : Nat} {fp : T → Nat} {asc : Bool}
    {inputId outputId : String} {st : MemFactory T} {input : List T}
    (hk : 2 ≤ k) (hin : memCreateInput inputId bufCap st = .ok input)
    (hbud : ∀ y ∈ input, fp y ≤ budget) (hout : ∀ c : Nat, outputId ≠ tempName c)
    (hclean : NoTempEntries st) :
    ∃ (st' : MemFactory T) (out : List T),
      sorterSort budget fp k bufCap asc inputId outputId st = .ok () st' ∧
      st'.storages outputId = some out ∧
      (out : Multiset T) = (input : Multiset T) := by
  obtain ⟨st', heq, hsto, _, _⟩ := sorterSort_master hk hin hbud hout hclean
  exact ⟨st', sortRun asc input, heq, hsto,
    Multiset.coe_eq_coe.mpr (sortRun_perm asc input)⟩

/-- Witness for C2 on the concrete factory holding `[3, 1, 2]`. -/
theorem sorter_output_permutation_witness :
    (2 ≤ 3 ∧ memCreateInput "in" 2 wFactoryA = .ok [3, 1, 2] ∧
      (∀ y ∈ [3, 1, 2], (fun _ : Nat => 1) y ≤ 9)) ∧
    ∃ (st' : MemFactory Nat) (out : List Nat),
      sorterSort 9 (fun _ => 1) 3 2 false "in" "out" wFactoryA = .ok () st' ∧
      st'.storages "out" = some out ∧
      (out : Multiset Nat) = ([3, 1, 2] : List Nat) :=
  ⟨⟨by decide, rfl, by decide⟩,
    sorter_output_permutation (by decide) rfl (by decide) out_ne_temp wFactoryA_noTemp⟩

/-- C3 counterexample: a record type that is not trivially copyable but
satisfies both the method strategy and the external-function strategy is
dispatched by `CreateSerializer` (serializers.hpp lines 411-425) to the
external-function (`CustomSerializable`) strategy, while the precedence the
claim and the spec state (pod, then methods, then free functions) would
pick the method strategy. -/
theorem createSerializer_order_counterexample :
    CreateSerializer ⟨false, true, true, false⟩ = .customFunction ∧
    specCreateSerializer ⟨false, true, true, false⟩ = .method ∧
    SerializerChoice.customFunction ≠ SerializerChoice.method := by
  decide

/-- C3 (amended): for a record type that is not pod-serializable and
satisfies the external-function strategy, `CreateSerializer` selects the
external-function strategy even when the method strategy is also available:
the code's precedence is pod, then external free functions, then methods,
then library specializations. -/
theorem createSerializer_prefers_custom (t : TypeTraits)
    (hpod : t.podSerializable = false) (hcust : t.customSerializable = true) :
    CreateSerializer t = .customFunction ∧
    (t.methodSerializable = true → CreateSerializer t ≠ .method) := by
  rw [CreateSerializer]
  simp [hpod, hcust]

/-- Witness for the amended C3 at the traits of a type with both free
functions and methods. -/
theorem createSerializer_prefers_custom_witness :
    (TypeTraits.podSerializable ⟨false, true, true, false⟩ = false ∧
      TypeTraits.customSerializable ⟨false, true, true, false⟩ = true) ∧
    (CreateSerializer ⟨false, true, true, false⟩ = .customFunction ∧
      (TypeTraits.methodSerializable ⟨false, true, true, false⟩ = true →
        CreateSerializer ⟨false, true, true, false⟩ ≠ .method)) :=
  ⟨⟨rfl, rfl⟩, createSerializer_prefers_custom _ rfl rfl⟩

/-- C4: for every finalized output stream, file-backed or in-memory, the
stored header (declared record count) equals the number of records written
before finalization, and re-opening the storage as an input yields exactly
those records. -/
theorem finalize_header_accuracy (nm : String) (cap : Nat) (l : List T) (st : MemFactory T) :
    (∃ fo : FileOutputModel T, fileOutputWriteAll l (fileOutputNew nm cap) = .ok fo ∧
      (fileOutputFinalize fo).headerOnDisk = l.length ∧
      fileReadBackAll (fileOutputFinalize fo) = l) ∧
    ((memFinalize nm l.length (memWriteAll nm l (memCreateOutput nm cap st))).declaredSizes nm
        = some l.length ∧
      memCreateInput nm cap
        (memFinalize nm l.length (memWriteAll nm l (memCreateOutput nm cap st))) = .ok l) := by
  constructor
  · obtain ⟨fo, heq, hinv⟩ := fileOutputWriteAll_inv l (fileOutputNew_inv nm cap)
    rw [List.nil_append] at hinv
    obtain ⟨hh, hr, _⟩ := fileOutputFinalize_spec hinv
    exact ⟨fo, heq, hh, hr⟩
  · have h1 : (memCreateOutput nm cap st).storages nm = some [] := upd_same _ _ _
    have h2 := memWriteAll_storages l nm [] _ h1
    rw [List.nil_append] at h2
    have hsto : (memFinalize nm l.length
        (memWriteAll nm l (memCreateOutput nm cap st))).storages nm = some l := h2
    have hdecl : (memFinalize nm l.length
        (memWriteAll nm l (memCreateOutput nm cap st))).declaredSizes nm = some l.length :=
      upd_same _ _ _
    refine ⟨hdecl, ?_⟩
    rw [memCreateInput, hsto, hdecl]
    simp [List.take_length]

/-- C5: constructing a `KWayMergeSorter` whose output id lies strictly under
the factory's temp namespace (temp id a proper prefix of the output id)
fails with `InvalidOutputUnderTempNamespace`; the constructor is a pure
check performed before any stream is created, and an output id exactly
equal to the temp-namespace id passes the check. -/
theorem ctor_output_under_temp (memBytes kDegree ioBufElems : Nat) (out temp : String)
    (hk : 2 ≤ kDegree) (hne : temp.isEmpty = false)
    (hpre : temp.data.isPrefixOf out.data = true) (hlt : temp.length < out.length) :
    exKind (kwayMergeSorterCtor memBytes kDegree ioBufElems out temp) =
      some ErrKind.invalidOutputUnderTempNamespace ∧
    kwayMergeSorterCtor memBytes kDegree ioBufElems temp temp = .ok () := by
  constructor
  · rw [kwayMergeSorterCtor, if_neg (by omega), if_pos (by simp [hne, hpre, hlt])]
    rfl
  · rw [kwayMergeSorterCtor, if_neg (by omega), if_neg (by simp)]

/-- Witness for C5: an output id `"tmp/out"` strictly under the temp
namespace `"tmp"` is rejected, `"tmp"` itself is not. -/
theorem ctor_output_under_temp_witness :
    (2 ≤ 2 ∧ ("tmp" : String).isEmpty = false ∧
      ("tmp" : String).data.isPrefixOf ("tmp/out" : String).data = true ∧
      ("tmp" : String).length < ("tmp/out" : String).length) ∧
    (exKind (kwayMergeSorterCtor 1024 2 4 "tmp/out" "tmp") =
        some ErrKind.invalidOutputUnderTempNamespace ∧
      kwayMergeSorterCtor 1024 2 4 "tmp" "tmp" = .ok ()) :=
  ⟨⟨by decide, by decide, by decide, by decide⟩,
    ctor_output_under_temp 1024 2 4 "tmp/out" "tmp" (by decide) (by decide)
      (by decide) (by decide)⟩

/-- C6: when some single input record's footprint exceeds the memory
budget, `Sort()` fails with `MemoryLimitExceeded` (raised by
`CreateInitialRuns` when the record would start a new run buffer), and the
entry at the output id is left exactly as it was: no partially sorted
output is produced. -/
theorem sort_memory_limit {budget k bufCap : Nat} {fp : T → Nat} {asc : Bool}
    {inputId outputId : String} {st : MemFactory T} {input : List T}
    (hin : memCreateInput inputId bufCap st = .ok input)
    (hheavy : ∃ y ∈ input, budget < fp y)
    (hout : ∀ c : Nat, outputId ≠ tempName c) :
    ∃ st', sorterSort budget fp k bufCap asc inputId outputId st =
        .err (.memoryLimitExceeded
          "KWayMergeSorter: Memory limit is too small for a single element.") st' ∧
      st'.storages outputId = st.storages outputId ∧
      st'.declaredSizes outputId = st.declaredSizes outputId := by
  cases input with
  | nil => simp at hheavy
  | cons x xs =>
    obtain ⟨st', heq, hframe⟩ := createRunsLoop_heavy asc bufCap (x :: xs).length
      (x :: xs) [] st hheavy le_rfl
    have hfr := hframe outputId (fun c _ => hout c)
    refine ⟨st', ?_, hfr.1, hfr.2⟩
    rw [sorterSort, createInitialRuns]
    simp only [hin, List.isEmpty_cons, Bool.false_eq_true, if_false, heq]

/-- Witness for C6: budget `3` cannot hold the record `5` whose footprint is
its own value. -/
theorem sort_memory_limit_witness :
    (memCreateInput "in" 1 wFactoryB = .ok [5, 1] ∧
      (∃ y ∈ [5, 1], 3 < (fun y : Nat => y) y)) ∧
    ∃ st', sorterSort 3 (fun y => y) 2 1 true "in" "out" wFactoryB =
        .err (.memoryLimitExceeded
          "KWayMergeSorter: Memory limit is too small for a single element.") st' ∧
      st'.storages "out" = wFactoryB.storages "out" ∧
      st'.declaredSizes "out" = wFactoryB.declaredSizes "out" :=
  ⟨⟨rfl, by decide⟩, sort_memory_limit rfl (by decide) out_ne_temp⟩

/-- C7 counterexample: invoking the sorter with a zero I/O buffer capacity
is NOT rejected: the constructor (k_way_merge_sorter.hpp lines 262-283)
accepts it, and `ElementBuffer` (element_buffer.hpp lines 117-123) silently
clamps the capacity to `max(1, capacity) = 1`. -/
theorem ctor_zero_buffer_accepted :
    kwayMergeSorterCtor 1024 2 0 "out" "tmp" = .ok () ∧
    exKind (kwayMergeSorterCtor 1024 2 0 "out" "tmp") ≠ some ErrKind.invalidArgument ∧
    elementBufferCapacity 0 = 1 :=
  ⟨rfl, by decide, by decide⟩

/-- C7 (amended): a zero I/O buffer capacity is not validated anywhere: the
constructor's outcome does not depend on the buffer capacity at all (it
checks only `k < 2` and the temp-namespace prefix), and `ElementBuffer`
clamps the stored capacity to `max(1, capacity)`, so capacity `0` behaves
exactly as capacity `1`. -/
theorem ctor_ignores_buffer_capacity (memBytes kDegree : Nat) (out temp : String) :
    kwayMergeSorterCtor memBytes kDegree 0 out temp =
      kwayMergeSorterCtor memBytes kDegree 1 out temp ∧
    elementBufferCapacity 0 = elementBufferCapacity 1 :=
  ⟨rfl, rfl⟩

/-- C8: for every input whose header declares zero records, `Sort()` creates
an empty finalized output (stored sequence `[]`, declared size `0`) at the
output id, returns successfully, and mints no temp run (the temp id counter
is unchanged). -/
theorem sort_empty_input {budget k bufCap : Nat} {fp : T → Nat} {asc : Bool}
    {inputId outputId : String} {st : MemFactory T}
    (hin : memCreateInput inputId bufCap st = .ok ([] : List T)) :
    ∃ st', sorterSort budget fp k bufCap asc inputId outputId st = .ok () st' ∧
      st'.storages outputId = some ([] : List T) ∧
      st'.declaredSizes outputId = some 0 ∧
      st'.tempIdCounter = st.tempIdCounter := by
  refine ⟨memFinalize outputId 0 (memCreateOutput outputId bufCap st), ?_, ?_, ?_, rfl⟩
  · rw [sorterSort, createInitialRuns]
    simp only [hin, List.isEmpty_nil, if_true]
  · show upd st.storages outputId (some []) outputId = _
    rw [upd_same]
  · show upd (upd st.declaredSizes outputId (some 0)) outputId (some 0) outputId = _
    rw [upd_same]

/-- Witness for C8 on the concrete factory whose storage `"in"` is empty
with header zero. -/
theorem sort_empty_input_witness :
    memCreateInput "in" 1 wFactoryC = .ok ([] : List Nat) ∧
    ∃ st', sorterSort 4 (fun _ : Nat => 1) 2 1 true "in" "out" wFactoryC = .ok () st' ∧
      st'.storages "out" = some ([] : List Nat) ∧
      st'.declaredSizes "out" = some 0 ∧
      st'.tempIdCounter = wFactoryC.tempIdCounter :=
  ⟨rfl, sort_empty_input rfl⟩

/-- C9: after every successful `Sort()` no temp entry minted by the sorter
remains in the factory's temp namespace, and dropping a `TempFileManager`
that created its directory removes every path under that directory. -/
theorem sort_temp_cleanup {budget k bufCap : Nat} {fp : T → Nat} {asc : Bool}
    {inputId outputId : String} {st : MemFactory T} {input : List T}
    (hk : 2 ≤ k) (hin : memCreateInput inputId bufCap st = .ok input)
    (hbud : ∀ y ∈ input, fp y ≤ budget) (hout : ∀ c : Nat, outputId ≠ tempName c)
    (hclean : NoTempEntries st) (baseDirPath p : String) (fsExists : String → Bool)
    (hfs : fsExists baseDirPath = true) (hp : baseDirPath.data.isPrefixOf p.data = true) :
    (∃ st', sorterSort budget fp k bufCap asc inputId outputId st = .ok () st' ∧
      NoTempEntries st') ∧
    tempManagerDrop true baseDirPath fsExists p = false := by
  obtain ⟨st', heq, _, _, hnt⟩ := sorterSort_master hk hin hbud hout hclean
  exact ⟨⟨st', heq, hnt⟩, by simp [tempManagerDrop, hfs, hp]⟩

/-- Witness for C9 on the concrete factory holding `[3, 1, 2]` and a
two-path filesystem. -/
theorem sort_temp_cleanup_witness :
    (2 ≤ 2 ∧ memCreateInput "in" 3 wFactoryA = .ok [3, 1, 2] ∧
      (fun _ : String => true) "t" = true ∧
      ("t" : String).data.isPrefixOf ("t/0" : String).data = true) ∧
    ((∃ st', sorterSort 6 (fun _ : Nat => 2) 2 3 false "in" "out" wFactoryA = .ok () st' ∧
      NoTempEntries st') ∧
    tempManagerDrop true "t" (fun _ => true) "t/0" = false) :=
  ⟨⟨by decide, rfl, rfl, by decide⟩,
    sort_temp_cleanup (by decide)
      (show memCreateInput "in" 3 wFactoryA = .ok [3, 1, 2] from rfl) (by decide)
      out_ne_temp wFactoryA_noTemp "t" "t/0" (fun _ => true) rfl (by decide)⟩

/-- C10: `Advance()` on an already exhausted input stream, file-backed or
in-memory, never throws and is a no-op on the observable state: the stream
state is unchanged, `IsExhausted()` keeps returning true and `Value()`
keeps failing — exhaustion is permanent. -/
theorem advance_exhausted_noop {U : Type} [Inhabited U] (stf : FileInputModel U)
    (stm : MemInputModel U) (hf : fileInputIsExhausted stf = true)
    (hm : memInputIsExhausted stm = true) :
    fileInputAdvance stf = stf ∧ fileInputIsExhausted (fileInputAdvance stf) = true ∧
    (∃ e, fileInputValue (fileInputAdvance stf) = .error e) ∧
    memInputAdvance stm = stm ∧ memInputIsExhausted (memInputAdvance stm) = true ∧
    (∃ e, memInputValue (memInputAdvance stm) = .error e) := by
  have hff : stf.isExhaustedFlag = true := by
    rw [fileInputIsExhausted, Bool.and_eq_true] at hf
    exact hf.1
  have hfv : stf.hasValidValue = false := by
    rw [fileInputIsExhausted, Bool.and_eq_true] at hf
    have := hf.2
    cases hval : stf.hasValidValue with
    | false => rfl
    | true => rw [hval] at this; exact absurd this (by decide)
  have hmf : stm.isExhaustedFlag = true := by
    rw [memInputIsExhausted, Bool.and_eq_true] at hm
    exact hm.1
  have hmv : stm.hasValidValue = false := by
    rw [memInputIsExhausted, Bool.and_eq_true] at hm
    have := hm.2
    cases hval : stm.hasValidValue with
    | false => rfl
    | true => rw [hval] at this; exact absurd this (by decide)
  have hadvf : fileInputAdvance stf = stf := by
    cases stf with
    | mk a b c d e f g h i =>
      have hg : g = true := hff
      have hi : i = false := hfv
      subst hg
      subst hi
      rw [fileInputAdvance, if_pos (by simp)]
  have hadvm : memInputAdvance stm = stm := by
    cases stm with
    | mk a b c d e f g =>
      have hg : g = true := hmf
      have hf2 : f = false := hmv
      subst hg
      subst hf2
      rw [memInputAdvance, if_pos (by simp)]
  refine ⟨hadvf, by rw [hadvf]; exact hf, ?_, hadvm, by rw [hadvm]; exact hm, ?_⟩
  · rw [hadvf, fileInputValue, if_neg (by simp [hfv])]
    exact ⟨_, rfl⟩
  · rw [hadvm, memInputValue, if_neg (by simp [hmv])]
    exact ⟨_, rfl⟩

/-- Witness for C10 on concrete exhausted file-backed and in-memory
streams. -/
theorem advance_exhausted_noop_witness :
    (fileInputIsExhausted wFileExhausted = true ∧
      memInputIsExhausted wMemExhausted = true) ∧
    (fileInputAdvance wFileExhausted = wFileExhausted ∧
      fileInputIsExhausted (fileInputAdvance wFileExhausted) = true ∧
      (∃ e, fileInputValue (fileInputAdvance wFileExhausted) = .error e) ∧
      memInputAdvance wMemExhausted = wMemExhausted ∧
      memInputIsExhausted (memInputAdvance wMemExhausted) = true ∧
      (∃ e, memInputValue (memInputAdvance wMemExhausted) = .error e)) :=
  ⟨⟨rfl, rfl⟩, advance_exhausted_noop wFileExhausted wMemExhausted rfl rfl⟩

end ExtSort
